import Mathlib

/-!
Verification of the Betting-Arbitrage event-purification and arbitrage-detection
core, as a shallow embedding in Lean 4.

The embedding translates the Python source:
  * `find_arbitrage.py` (`find_best_odds`, `calculate_arbitrage`),
  * `utils/webhook.py` (`send_to_webhook`),
  * `core/normalizer.py` (`normalize_team_name`, `teams_match`),
  * `purify_data.py` (`events_match`, `purify_events`),
  * `core/matcher.py` (`EventMatcher.events_match`, `EventMatcher.match_events`).

Modelling conventions:
  * Python floats become exact rationals (`ℚ`); `round(x, n)` becomes round
    half to even at `n` decimal digits (`pyRound`), matching Python's
    documented rounding mode.
  * Python dicts become association lists that preserve insertion order;
    overwriting a key keeps its position (`dinsert`), as CPython dicts do.
  * Timestamps (`datetime`) become integers counting seconds; a
    `timedelta(minutes=m)` bound becomes `m * 60`.
  * Strings are processed as `List Char`.  Python's `str.lower` is modelled
    by ASCII lowercasing (`Char.toLower`), and `\w` / `\s` character classes
    by ASCII word characters (plus all non-ASCII, which Python treats as
    word characters for the inputs at hand) and ASCII whitespace.
-/

/-! ## Webhook sender (`utils/webhook.py`) -/

/-- Outcome of the single HTTP POST the webhook sender may perform:
an HTTP status code, a timeout, a connection error, or another exception. -/
inductive PostResponse : Type where
  | status (code : Nat)
  | timeout
  | connError
  | otherError
deriving Repr, DecidableEq

/-- `send_to_webhook` from `utils/webhook.py`.  The transport is modelled by
the `resp` parameter (the response the HTTP POST would produce if performed).
The second component of the result counts HTTP requests actually performed
(0 or 1), so that "returns without performing any HTTP request" is a statement
about this function.  Mirrors the source's order of guards: the URL emptiness
check comes first, then the empty-opportunities check, then the POST. -/
def send_to_webhook {α : Type} (webhook_url : String) (opportunities : List α)
    (resp : PostResponse) : Bool × Nat :=
  if webhook_url = "" then (false, 0)
  else if opportunities.isEmpty then (true, 0)
  else
    match resp with
    | .status code => (decide (code = 200), 1)
    | .timeout => (false, 1)
    | .connError => (false, 1)
    | .otherError => (false, 1)

/-! ## Arbitrage detector (`find_arbitrage.py`) -/

/-- One entry of the `best_odds` dictionary built by `find_best_odds`:
the best quoted odds for one outcome and the bookmaker offering it. -/
structure BestQuote : Type where
  odds : ℚ
  bookmaker : Option String
deriving Repr, DecidableEq

/-- The `best_odds` dictionary with its three keys `"1"`, `"X"`, `"2"`. -/
structure BestOdds : Type where
  one : BestQuote
  draw : BestQuote
  two : BestQuote
deriving Repr, DecidableEq

/-- Round half to even to an integer, the rounding mode of Python's `round`. -/
def roundHalfEven (q : ℚ) : ℤ :=
  let f := ⌊q⌋
  let r := q - (f : ℚ)
  if r < 1/2 then f
  else if 1/2 < r then f + 1
  else if f % 2 = 0 then f else f + 1

/-- Python's `round(q, n)`: round half to even at `n` decimal digits. -/
def pyRound (n : ℕ) (q : ℚ) : ℚ :=
  ((roundHalfEven (q * 10 ^ n) : ℤ) : ℚ) / 10 ^ n

/-- `total_inverse = (1/odds_1) + (1/odds_X) + (1/odds_2)` from
`calculate_arbitrage`. -/
def total_inverse (b : BestOdds) : ℚ :=
  1 / b.one.odds + 1 / b.draw.odds + 1 / b.two.odds

/-- The exact (pre-rounding) stake allocated to one outcome:
`(1/odds) / total_inverse * total_stake`. -/
def stakeExact (odds tI total_stake : ℚ) : ℚ :=
  1 / odds / tI * total_stake

/-- The exact (pre-rounding) arbitrage percentage `((1/total_inverse) - 1) * 100`. -/
def arbPctExact (tI : ℚ) : ℚ :=
  (1 / tI - 1) * 100

/-- The exact (pre-rounding) guaranteed profit
`total_stake / total_inverse - total_stake`. -/
def profitExact (tI total_stake : ℚ) : ℚ :=
  total_stake / tI - total_stake

/-- The dictionary returned by `calculate_arbitrage` on success. -/
structure ArbitrageResult : Type where
  arbitrage_percentage : ℚ
  total_inverse : ℚ
  stake_1 : ℚ
  stake_X : ℚ
  stake_2 : ℚ
  profit : ℚ
  total_stake : ℚ
  unique_bookmakers : ℕ
  is_executable : Bool
deriving Repr, DecidableEq

/-- `calculate_arbitrage` from `find_arbitrage.py`.  Returns `none` when some
best odds value is zero (Python falsiness of `0.0` in
`not (odds_1 and odds_X and odds_2)`) or when `total_inverse >= 1`; otherwise
builds the result record, rounding monetary and percentage outputs to 2
decimals and `total_inverse` to 4 at the output boundary. -/
def calculate_arbitrage (b : BestOdds) (total_stake : ℚ) : Option ArbitrageResult :=
  if b.one.odds = 0 ∨ b.draw.odds = 0 ∨ b.two.odds = 0 then none
  else if 1 ≤ total_inverse b then none
  else
    let ub := [b.one.bookmaker, b.draw.bookmaker, b.two.bookmaker].dedup.length
    some {
      arbitrage_percentage := pyRound 2 (arbPctExact (total_inverse b)),
      total_inverse := pyRound 4 (total_inverse b),
      stake_1 := pyRound 2 (stakeExact b.one.odds (total_inverse b) total_stake),
      stake_X := pyRound 2 (stakeExact b.draw.odds (total_inverse b) total_stake),
      stake_2 := pyRound 2 (stakeExact b.two.odds (total_inverse b) total_stake),
      profit := pyRound 2 (profitExact (total_inverse b) total_stake),
      total_stake := total_stake,
      unique_bookmakers := ub,
      is_executable := decide (2 ≤ ub) }

/-! ## Best-odds selection (`find_best_odds`) -/

/-- The `1x2` market dictionary of one bookmaker inside a purified event
record: outcome code (`"1"`, `"X"`, `"2"`) to decimal odds. -/
structure PMarket : Type where
  outcomes : List (String × ℚ)
deriving Repr, DecidableEq

/-- One bookmaker's event data inside a purified event record. -/
structure PEventData : Type where
  markets : List (String × PMarket)
deriving Repr, DecidableEq

/-- The inner update of `find_best_odds`:
`if odds and odds > best_odds[outcome]['odds']` replaces the running best. -/
def bestStep (cur : BestQuote) (q : String × ℚ) : BestQuote :=
  if q.2 ≠ 0 ∧ cur.odds < q.2 then ⟨q.2, some q.1⟩ else cur

/-- One outcome's update for one bookmaker in `find_best_odds`:
`odds = outcomes.get(outcome)`; when present apply `bestStep`. -/
def updOutcome (bk : String) (outs : List (String × ℚ)) (key : String)
    (cur : BestQuote) : BestQuote :=
  match outs.lookup key with
  | none => cur
  | some v => bestStep cur (bk, v)

/-- One bookmaker's contribution in `find_best_odds`: look up its `1x2`
market (skip the bookmaker when absent — Python falsiness of
`markets.get('1x2')`) and update each of the three outcomes. -/
def fboStep (cur : BestOdds) (p : String × PEventData) : BestOdds :=
  match p.2.markets.lookup ("1x2") with
  | none => cur
  | some m =>
    ⟨updOutcome p.1 m.outcomes ("1") cur.one,
     updOutcome p.1 m.outcomes ("X") cur.draw,
     updOutcome p.1 m.outcomes ("2") cur.two⟩

/-- `find_best_odds` from `find_arbitrage.py`: fold every contributing
bookmaker's event data, in iteration order, over the three running bests,
starting from `odds = 0, bookmaker = None`. -/
def find_best_odds (events : List (String × PEventData)) : BestOdds :=
  events.foldl fboStep ⟨⟨0, none⟩, ⟨0, none⟩, ⟨0, none⟩⟩

/-- The quotes visible to `find_best_odds` for one outcome code: for every
bookmaker that has a `1x2` market quoting that outcome, the pair
(bookmaker, odds), in bookmaker iteration order. -/
def quotesFor (events : List (String × PEventData)) (key : String) :
    List (String × ℚ) :=
  events.filterMap fun p =>
    (p.2.markets.lookup ("1x2")).bind fun m =>
      (m.outcomes.lookup key).map fun v => (p.1, v)

/-- Modelled from the spec's words, for comparison with `find_best_odds`:
the maximum quoted price for one outcome (0 when there are no quotes), paired
with the first bookmaker in iteration order attaining it (none when there are
no quotes). -/
def specBestQuote (qs : List (String × ℚ)) : BestQuote :=
  ⟨(qs.map Prod.snd).foldr max 0,
   (qs.find? fun q => q.2 = (qs.map Prod.snd).foldr max 0).map Prod.fst⟩

/-! ## Name normalizer (`core/normalizer.py`) -/

/-- Python's `str.lower`, restricted to ASCII case folding in this model. -/
def pyLower (c : Char) : Char := c.toLower

/-- ASCII whitespace, the model of the regex class `\s`. -/
def isWs (c : Char) : Bool :=
  c = ' ' || c = '\t' || c = '\n' || c = '\r' || c = '\x0b' || c = '\x0c'

/-- Word characters, the model of the regex class `\w`: ASCII alphanumerics,
the underscore, and (as Python treats all the non-ASCII characters occurring
in team names) every non-ASCII character. -/
def isWordChar (c : Char) : Bool :=
  c.isAlphanum || c = '_' || decide (128 ≤ c.toNat)

/-- Modelled from the spec: the transliteration table of the external
`unidecode` library (not part of the repository), restricted to the lowercase
Greek letters and common accented Latin letters occurring in the data; the
spec asks for folding of non-Latin scripts, in particular Greek, to a
comparable base-Latin form. -/
def greekLatinTable : List (Char × String) :=
  [('α', ("a")), ('β', ("b")), ('γ', ("g")), ('δ', ("d")), ('ε', ("e")),
   ('ζ', ("z")), ('η', ("e")), ('θ', ("th")), ('ι', ("i")), ('κ', ("k")),
   ('λ', ("l")), ('μ', ("m")), ('ν', ("n")), ('ξ', ("x")), ('ο', ("o")),
   ('π', ("p")), ('ρ', ("r")), ('σ', ("s")), ('ς', ("s")), ('τ', ("t")),
   ('υ', ("u")), ('φ', ("ph")), ('χ', ("kh")), ('ψ', ("ps")), ('ω', ("o")),
   ('ά', ("a")), ('έ', ("e")), ('ή', ("e")), ('ί', ("i")), ('ό', ("o")),
   ('ύ', ("u")), ('ώ', ("o")), ('ϊ', ("i")), ('ϋ', ("u")),
   ('á', ("a")), ('à', ("a")), ('ä', ("a")), ('â', ("a")), ('ã', ("a")),
   ('å', ("a")), ('é', ("e")), ('è', ("e")), ('ë', ("e")), ('ê', ("e")),
   ('í', ("i")), ('ì', ("i")), ('ï', ("i")), ('î', ("i")), ('ó', ("o")),
   ('ò', ("o")), ('ö', ("o")), ('ô', ("o")), ('õ', ("o")), ('ú', ("u")),
   ('ù', ("u")), ('ü', ("u")), ('û', ("u")), ('ñ', ("n")), ('ç', ("c")),
   ('ß', ("ss"))]

/-- Modelled from the spec: per-character transliteration (`unidecode`),
identity on ASCII, table lookup beyond, identity on characters outside the
table. -/
def unidecodeChar (c : Char) : List Char :=
  if c.toNat < 128 then [c]
  else
    match greekLatinTable.lookup c with
    | some t => t.data
    | none => [c]

/-- Match a reversed token at the head of a reversed string,
case-insensitively (`re.IGNORECASE`); on success return what is left. -/
def dropTokCI : List Char → List Char → Option (List Char)
  | [], r => some r
  | _ :: _, [] => none
  | t :: ts, c :: cs => if pyLower c = t then dropTokCI ts cs else none

/-- Core of `re.sub(r'\s+TOK$', '', name)` on a reversed string: the token,
then at least one whitespace character; remove the token and the whole
whitespace run. -/
def stripRevWs (tokRev : List Char) (r : List Char) : Option (List Char) :=
  match dropTokCI tokRev r with
  | none => none
  | some rest =>
    match rest with
    | [] => none
    | c :: _ => if isWs c then some (rest.dropWhile isWs) else none

/-- `re.sub(r'\s+TOK$', '', name, flags=re.IGNORECASE)` for a literal token:
strip a trailing whitespace-preceded occurrence of the token, or leave the
string unchanged. -/
def stripTrailing (tok : String) (s : List Char) : List Char :=
  match stripRevWs tok.data.reverse s.reverse with
  | some r => r.reverse
  | none => s

/-- `re.sub(r'\s*\(γ\)\s*$', '', name, flags=re.IGNORECASE)`: strip a
trailing parenthesised friendly-marker `(γ)` together with the whitespace
around it. -/
def stripGammaTag (s : List Char) : List Char :=
  match s.reverse.dropWhile isWs with
  | ')' :: g :: '(' :: rest =>
    if g = 'γ' ∨ g = 'Γ' then (rest.dropWhile isWs).reverse else s
  | _ => s

/-- `re.sub(r'[.\-_]', ' ', name)` pointwise. -/
def punctToSpace (c : Char) : Char :=
  if c = '.' ∨ c = '-' ∨ c = '_' then ' ' else c

/-- `re.sub(r'[^\w\s]', ' ', name)` pointwise. -/
def specialToSpace (c : Char) : Char :=
  if isWordChar c || isWs c then c else ' '

/-- `re.sub(r'\s+', ' ', name)`: collapse every whitespace run to one space. -/
def normSpaces : List Char → List Char
  | [] => []
  | [c] => if isWs c then [' '] else [c]
  | c :: d :: rest =>
    if isWs c && isWs d then normSpaces (d :: rest)
    else (if isWs c then ' ' else c) :: normSpaces (d :: rest)

/-- Python's `str.strip()`: drop leading and trailing whitespace. -/
def trimWs (l : List Char) : List Char :=
  ((l.dropWhile isWs).reverse.dropWhile isWs).reverse

/-- `normalize_team_name` from `core/normalizer.py`: empty guard, lowercase,
transliterate, strip the four trailing club-suffix patterns in source order
(FC, CF, SC, AC), strip a trailing `(γ)` marker, replace punctuation then
remaining special characters by spaces, collapse whitespace, trim. -/
def normalize_team_name (name : String) : String :=
  if name = "" then ""
  else
    let s := name.data.map pyLower
    let s := s.flatMap unidecodeChar
    let s := stripTrailing ("fc") s
    let s := stripTrailing ("cf") s
    let s := stripTrailing ("sc") s
    let s := stripTrailing ("ac") s
    let s := stripGammaTag s
    let s := s.map punctToSpace
    let s := s.map specialToSpace
    let s := normSpaces s
    String.mk (trimWs s)

/-- Longest common subsequence length, the classical recursion made
structural on a fuel argument (every recursive call shortens the combined
length by at least one, so `|a| + |b|` fuel always suffices). -/
def lcsFuel : Nat → List Char → List Char → Nat
  | 0, _, _ => 0
  | _ + 1, [], _ => 0
  | _ + 1, _ :: _, [] => 0
  | n + 1, a :: as, b :: bs =>
    if a = b then lcsFuel n as bs + 1
    else max (lcsFuel n (a :: as) bs) (lcsFuel n as (b :: bs))

/-- Longest common subsequence length of two character lists;
`rapidfuzz`'s indel distance is `|a| + |b| - 2 * lcs`. -/
def lcsLen (a b : List Char) : Nat := lcsFuel (a.length + b.length) a b

/-- Split on whitespace runs, discarding empty pieces (the tokenisation used
by `fuzz.token_sort_ratio`; `cur` holds the current token reversed). -/
def splitWsAux : List Char → List Char → List (List Char)
  | cur, [] => if cur = [] then [] else [cur.reverse]
  | cur, c :: cs =>
    if isWs c then
      if cur = [] then splitWsAux [] cs else cur.reverse :: splitWsAux [] cs
    else splitWsAux (c :: cur) cs

/-- Whitespace tokenisation of a character list. -/
def splitWs (s : List Char) : List (List Char) := splitWsAux [] s

/-- Lexicographic comparison of tokens by code point, Python's string
ordering. -/
def tokLe : List Char → List Char → Bool
  | [], _ => true
  | _ :: _, [] => false
  | a :: as, b :: bs => if a = b then tokLe as bs else decide (a < b)

/-- Stable insertion into a sorted list: `x` goes before the first element it
may precede. -/
def insertSorted {α : Type} (le : α → α → Bool) (x : α) : List α → List α
  | [] => [x]
  | y :: ys => if le x y then x :: y :: ys else y :: insertSorted le x ys

/-- Stable insertion sort (any stable sort is extensionally the sort Python
uses). -/
def isort {α : Type} (le : α → α → Bool) : List α → List α
  | [] => []
  | x :: xs => insertSorted le x (isort le xs)

/-- Join tokens with single spaces. -/
def joinSp : List (List Char) → List Char
  | [] => []
  | [t] => t
  | t :: ts => t ++ ' ' :: joinSp ts

/-- Token-sort normal form: split on whitespace, sort tokens, rejoin. -/
def tokenSortChars (s : List Char) : List Char :=
  joinSp (isort tokLe (splitWs s))

/-- `fuzz.token_sort_ratio(n1, n2) >= threshold`: the normalized indel
similarity of the token-sorted strings, scaled to 0..100, compared with the
threshold exactly (`100 * 2 * lcs / (la + lb) ≥ threshold`, cleared of the
division; both strings empty scores 100). -/
def fuzzScoreGe (n1 n2 : String) (threshold : Nat) : Bool :=
  let a := tokenSortChars n1.data
  let b := tokenSortChars n2.data
  if a.length + b.length = 0 then decide (threshold ≤ 100)
  else decide (threshold * (a.length + b.length) ≤ 200 * lcsLen a b)

/-- `teams_match` from `core/normalizer.py`: normalize both names, byte-equal
normal forms match outright, an empty normal form never matches, otherwise
compare the token-sort ratio with the threshold. -/
def teams_match (team1 team2 : String) (threshold : Nat) : Bool :=
  let norm1 := normalize_team_name team1
  let norm2 := normalize_team_name team2
  if norm1 = norm2 then true
  else if norm1 = "" ∨ norm2 = "" then false
  else fuzzScoreGe norm1 norm2 threshold

/-- The guard of a further club-suffix strip: the string ends in a
whitespace-preceded `fc`, `cf`, `sc` or `ac` token (case-insensitively). -/
def hasTrailingClubSuffix (s : String) : Bool :=
  (stripRevWs ("fc").data.reverse s.data.reverse).isSome ||
  (stripRevWs ("cf").data.reverse s.data.reverse).isSome ||
  (stripRevWs ("sc").data.reverse s.data.reverse).isSome ||
  (stripRevWs ("ac").data.reverse s.data.reverse).isSome

/-- StableChar: fixed by lowercasing and transliteration. -/
def StableChar (c : Char) : Prop := pyLower c = c ∧ unidecodeChar c = [c]

/-- Relation: no two adjacent whitespace characters. -/
def RnoWs (a b : Char) : Prop := isWs a = false ∨ isWs b = false

/-- CleanChar: the character classes that can appear in a normalized name. -/
def CleanChar (c : Char) : Prop :=
  c = ' ' ∨ (StableChar c ∧ c ≠ '.' ∧ c ≠ '-' ∧ c ≠ '_' ∧ isWordChar c = true)

/-- Boolean form of the no-adjacent-whitespace invariant (kept Bool-valued so
that statements about large pipeline terms stay cheap to elaborate). -/
def noTwoWsB : List Char → Bool
  | [] => true
  | [_] => true
  | c :: d :: rest => !(isWs c && isWs d) && noTwoWsB (d :: rest)

/-- A concrete purified-event bookmaker mapping used to instantiate
universally quantified theorems (two bookmakers, integer odds, a tie on
outcome `"1"`, a missing outcome `"2"` at the second bookmaker). -/
def eventsEx : List (String × PEventData) :=
  [("b1", ⟨[("1x2", ⟨[("1", 2), ("X", 3), ("2", 4)]⟩)]⟩),
   ("b2", ⟨[("1x2", ⟨[("1", 2), ("X", 5)]⟩)]⟩)]

/-- A concrete best-odds record (integer odds, three distinct bookmakers)
used to instantiate universally quantified theorems. -/
def bOddsEx : BestOdds :=
  ⟨⟨2, some ("alpha")⟩, ⟨4, some ("beta")⟩, ⟨5, some ("gamma")⟩⟩

/-- The arbitrage result `calculate_arbitrage` produces on `bOddsEx` with
total stake 1000 (total inverse 19/20). -/
def rArbEx : ArbitrageResult :=
  ⟨263/50, 19/20, 13158/25, 6579/25, 21053/100, 5263/100, 1000, 3, true⟩


/-! ## Cross-source matcher (`purify_data.py`, `core/matcher.py`) -/

structure Market : Type where
  key : String
  outcomes : List (String × ℚ)
deriving Repr, DecidableEq

structure Event : Type where
  booker : String
  event_id : Option String
  league : Option String
  home : String
  away : String
  start : ℤ
  markets : List (String × Market)
deriving Repr, DecidableEq

def events_match (e1 e2 : Event)
    (time_threshold_minutes similarity_threshold : ℕ) : Bool :=
  if (e1.start - e2.start).natAbs ≤ time_threshold_minutes * 60 then
    teams_match e1.home e2.home similarity_threshold
      && teams_match e1.away e2.away similarity_threshold
  else false

def lowerStrip (s : String) : String := String.mk (trimWs (s.data.map pyLower))

def matcher_events_match (e1 e2 : Event) (time_threshold_minutes : ℕ) : Bool :=
  if (e1.start - e2.start).natAbs ≤ time_threshold_minutes * 60 then
    (lowerStrip e1.home == lowerStrip e2.home)
      && (lowerStrip e1.away == lowerStrip e2.away)
  else false

structure MGroup : Type where
  home : String
  away : String
  league : Option String
  entries : List (String × ((String × Nat) × Event))
deriving Repr, DecidableEq

def dinsert {β : Type} (k : String) (v : β) : List (String × β) → List (String × β)
  | [] => [(k, v)]
  | (k', v') :: t => if k' = k then (k, v) :: t else (k', v') :: dinsert k v t

def addEvent (g : MGroup) (src : String × Nat) (e : Event) : MGroup :=
  { g with entries := dinsert e.booker (src, e) g.entries }

def groupPairs (g : MGroup) : List (String × Nat) :=
  g.entries.map (fun x => x.2.1)

def scanList (stopFirst : Bool) (pr : Event → Bool) (bk : String) :
    Nat → List Event → MGroup → List (String × Nat) →
      MGroup × List (String × Nat)
  | _, [], g, consumed => (g, consumed)
  | j, e :: rest, g, consumed =>
    if (bk, j) ∈ consumed then scanList stopFirst pr bk (j + 1) rest g consumed
    else if pr e then
      let g' := addEvent g (bk, j) e
      let c' := (bk, j) :: consumed
      if stopFirst then (g', c') else scanList stopFirst pr bk (j + 1) rest g' c'
    else scanList stopFirst pr bk (j + 1) rest g consumed

def scanBookmakers (stopFirst : Bool) (pr : Event → Event → Bool)
    (input : List (String × List Event)) (seed : Event) :
    List String → MGroup → List (String × Nat) → MGroup × List (String × Nat)
  | [], g, c => (g, c)
  | bk :: bks, g, c =>
    let evs := (input.lookup bk).getD []
    let r := scanList stopFirst (pr seed) bk 0 evs g c
    scanBookmakers stopFirst pr input seed bks r.1 r.2

def seedLoop (stopFirst : Bool) (pr : Event → Event → Bool) (minCov : Nat)
    (input : List (String × List Event)) (refBk : String) (others : List String) :
    Nat → List Event → List MGroup → List (String × Nat) →
      List MGroup × List (String × Nat)
  | _, [], gs, c => (gs, c)
  | i, e :: rest, gs, c =>
    if (refBk, i) ∈ c then
      seedLoop stopFirst pr minCov input refBk others (i + 1) rest gs c
    else
      let g0 := addEvent ⟨e.home, e.away, e.league, []⟩ (refBk, i) e
      let c1 := (refBk, i) :: c
      let r := scanBookmakers stopFirst pr input e others g0 c1
      let gs' := if minCov ≤ r.1.entries.length then gs ++ [r.1] else gs
      seedLoop stopFirst pr minCov input refBk others (i + 1) rest gs' r.2

def countOf (input : List (String × List Event)) (bk : String) : Nat :=
  ((input.lookup bk).getD []).length

def bookerNamesSorted (input : List (String × List Event)) : List String :=
  isort (fun a b => decide (countOf input b ≤ countOf input a)) (input.map Prod.fst)

def purifyFull (input : List (String × List Event)) (tth sth : ℕ) :
    List MGroup × List (String × Nat) :=
  match bookerNamesSorted input with
  | [] => ([], [])
  | ref :: others =>
    seedLoop false (fun e1 e2 => events_match e1 e2 tth sth) 3 input ref others 0
      ((input.lookup ref).getD []) [] []

def purify_events (input : List (String × List Event)) (tth sth : ℕ) :
    List MGroup :=
  (purifyFull input tth sth).1

def matchFull (input : List (String × List Event)) (tthMin : ℕ) :
    List MGroup × List (String × Nat) :=
  match input.map Prod.fst with
  | [] => ([], [])
  | ref :: others =>
    seedLoop true (fun e1 e2 => matcher_events_match e1 e2 tthMin) 2 input ref
      others 0 ((input.lookup ref).getD []) [] []

def match_events (input : List (String × List Event)) (tthMin : ℕ) :
    List MGroup :=
  (matchFull input tthMin).1

def purifyReference (input : List (String × List Event)) : Option String :=
  (bookerNamesSorted input).head?

def matcherReference (input : List (String × List Event)) : Option String :=
  (input.map Prod.fst).head?

def firstMaxKey (f : String → ℕ) (k : String) : List String → String
  | [] => k
  | k' :: ks =>
    let m := firstMaxKey f k' ks
    if f k < f m then m else k

def mostEventsReference (input : List (String × List Event)) : Option String :=
  match input.map Prod.fst with
  | [] => none
  | k :: ks => some (firstMaxKey (countOf input) k ks)

def mkEv (bk id h a : String) (t : ℤ) : Event := ⟨bk, some id, none, h, a, t, []⟩

def inputPurifyEx : List (String × List Event) :=
  [("A", [mkEv ("A") ("a1") ("x") ("y") 0, mkEv ("A") ("a2") ("x") ("y") 100000,
          mkEv ("A") ("a3") ("x") ("y") 200000]),
   ("B", [mkEv ("B") ("b1") ("x") ("y") 0, mkEv ("B") ("b2") ("x") ("y") 0]),
   ("C", [mkEv ("C") ("c1") ("x") ("y") 0])]

def inputMatchEx : List (String × List Event) :=
  [("A", [mkEv ("A") ("a1") ("HOMEA") ("y") 0]),
   ("B", [mkEv ("B") ("b1") ("homea") ("y") 0, mkEv ("B") ("b2") ("other") ("z") 0])]

/-- Pairwise-disjointness of the source-record identities of two groups. -/
def GDisj (g1 g2 : MGroup) : Prop :=
  ∀ p ∈ groupPairs g1, p ∉ groupPairs g2


/-! ## Theorems for the arbitrage detector and the webhook sender -/

/-- Claim C5: `calculate_arbitrage` returns none exactly when one of the three
best odds is zero/missing or the sum of reciprocals of the three best odds is
at least 1; in every other case it returns an opportunity record. -/
theorem c5_detector_none_iff (b : BestOdds) (s : ℚ) :
    calculate_arbitrage b s = none ↔
      (b.one.odds = 0 ∨ b.draw.odds = 0 ∨ b.two.odds = 0 ∨ 1 ≤ total_inverse b) := by
  unfold calculate_arbitrage
  split_ifs with h1 h2
  all_goals simp_all
  all_goals tauto

/-- Claim C10, counterexample: with an empty webhook URL and an empty
opportunities list, `send_to_webhook` returns `False` (the URL guard runs
first), while the claim says an empty opportunities list yields `True`.
No HTTP request is performed (second component 0). -/
theorem c10_webhook_counterexample :
    send_to_webhook ("") ([] : List Unit) (PostResponse.status 200) = (false, 0) := by
  rfl

/-- Claim C10, amended: with an empty webhook URL `send_to_webhook` returns
false without performing any HTTP request, regardless of the opportunities
list (this guard runs first); with a non-empty URL and an empty opportunities
list it returns true without performing any HTTP request. -/
theorem c10_webhook_guards_amended (α : Type) (opps : List α)
    (url : String) (resp : PostResponse) (hurl : url ≠ "") :
    send_to_webhook ("") opps resp = (false, 0) ∧
      send_to_webhook url ([] : List α) resp = (true, 0) := by
  constructor
  · rfl
  · unfold send_to_webhook
    rw [if_neg hurl]
    rfl

/-- Witness for C10's amended theorem at a concrete URL, opportunity list and
transport response. -/
theorem c10_webhook_guards_witness :
    send_to_webhook ("") [()] PostResponse.timeout = (false, 0) ∧
      send_to_webhook ("http://localhost") ([] : List Unit) PostResponse.timeout
        = (true, 0) :=
  c10_webhook_guards_amended Unit [()] ("http://localhost") PostResponse.timeout
    (by decide)

/-- Claim C3, counterexample: with best odds 2.10 / 4.00 / 4.50 at three
distinct bookmakers and total stake 1000, the profit field of
`calculate_arbitrage` rounds to 54.39, not 54.40 as the claim states
(exact profit is 13000/239 = 54.3933...). -/
theorem c3_arbitrage_profit_counterexample :
    (calculate_arbitrage ⟨⟨21/10, some ("bet365")⟩, ⟨4, some ("bwin")⟩,
        ⟨9/2, some ("betsson")⟩⟩ 1000).map ArbitrageResult.profit
      = some (5439/100) ∧ (5439 : ℚ)/100 ≠ 5440/100 := by
  refine ⟨?_, by norm_num⟩
  have h : calculate_arbitrage ⟨⟨21/10, some ("bet365")⟩, ⟨4, some ("bwin")⟩,
      ⟨9/2, some ("betsson")⟩⟩ 1000
      = some ⟨544/100, 2371/2500, 50209/100, 1318/5, 23431/100, 5439/100, 1000, 3, true⟩ := by
    unfold calculate_arbitrage total_inverse arbPctExact stakeExact profitExact
      pyRound roundHalfEven
    norm_num
    exact ⟨by decide, by decide⟩
  rw [h]
  rfl

/-- Claim C3, amended: with best odds 2.10 / 4.00 / 4.50 at three distinct
bookmakers and total stake 1000, `calculate_arbitrage` returns a result with
`total_inverse ≈ 0.9484` (4 decimals), `arbitrage_percentage ≈ 5.44`
(2 decimals), `profit ≈ 54.39` (2 decimals, not 54.40), and
`is_executable = true`; the full rounded record is computed here
(2371/2500 = 0.9484, 544/100 = 5.44, 5439/100 = 54.39). -/
theorem c3_arbitrage_arithmetic_amended :
    calculate_arbitrage ⟨⟨21/10, some ("bet365")⟩, ⟨4, some ("bwin")⟩,
        ⟨9/2, some ("betsson")⟩⟩ 1000
      = some ⟨544/100, 2371/2500, 50209/100, 1318/5, 23431/100, 5439/100, 1000, 3, true⟩ := by
  unfold calculate_arbitrage total_inverse arbPctExact stakeExact profitExact
    pyRound roundHalfEven
  norm_num
  exact ⟨by decide, by decide⟩

/-- Claim C9: whenever `calculate_arbitrage` returns a result, then with exact
arithmetic before rounding the three stakes sum to the total stake, each
stake times its odds equals `total_stake / total_inverse` (equal payout
across outcomes), and both the profit and the arbitrage percentage are
strictly positive.  Odds are positive by the data model (decimal odds are
at least 1) and the total stake is positive. -/
theorem c9_exact_invariants (b : BestOdds) (s : ℚ) (r : ArbitrageResult)
    (h1 : 0 < b.one.odds) (hX : 0 < b.draw.odds) (h2 : 0 < b.two.odds)
    (hs : 0 < s) (hr : calculate_arbitrage b s = some r) :
    stakeExact b.one.odds (total_inverse b) s
        + stakeExact b.draw.odds (total_inverse b) s
        + stakeExact b.two.odds (total_inverse b) s = s
    ∧ stakeExact b.one.odds (total_inverse b) s * b.one.odds = s / total_inverse b
    ∧ stakeExact b.draw.odds (total_inverse b) s * b.draw.odds = s / total_inverse b
    ∧ stakeExact b.two.odds (total_inverse b) s * b.two.odds = s / total_inverse b
    ∧ 0 < profitExact (total_inverse b) s
    ∧ 0 < arbPctExact (total_inverse b) := by
  have ho1 : b.one.odds ≠ 0 := ne_of_gt h1
  have hoX : b.draw.odds ≠ 0 := ne_of_gt hX
  have ho2 : b.two.odds ≠ 0 := ne_of_gt h2
  have hTpos : 0 < total_inverse b := by
    unfold total_inverse
    positivity
  have hT0 : total_inverse b ≠ 0 := ne_of_gt hTpos
  have hTlt : total_inverse b < 1 := by
    by_contra hge
    push_neg at hge
    unfold calculate_arbitrage at hr
    rw [if_neg (by simp [ho1, hoX, ho2]), if_pos hge] at hr
    exact Option.noConfusion hr
  refine ⟨?_, ?_, ?_, ?_, ?_, ?_⟩
  · unfold stakeExact total_inverse
    unfold total_inverse at hT0
    field_simp
    ring
  · unfold stakeExact
    field_simp
    ring
  · unfold stakeExact
    field_simp
    ring
  · unfold stakeExact
    field_simp
    ring
  · unfold profitExact
    have h : s < s / total_inverse b := by
      rw [lt_div_iff₀ hTpos]
      nlinarith
    linarith
  · unfold arbPctExact
    have h : 1 < 1 / total_inverse b := by
      rw [lt_div_iff₀ hTpos]
      linarith
    nlinarith

/-- Witness for C9 at the concrete best-odds record `bOddsEx` with total
stake 1000. -/
theorem c9_exact_invariants_witness :
    stakeExact bOddsEx.one.odds (total_inverse bOddsEx) 1000
        + stakeExact bOddsEx.draw.odds (total_inverse bOddsEx) 1000
        + stakeExact bOddsEx.two.odds (total_inverse bOddsEx) 1000 = 1000
    ∧ stakeExact bOddsEx.one.odds (total_inverse bOddsEx) 1000 * bOddsEx.one.odds
        = 1000 / total_inverse bOddsEx
    ∧ stakeExact bOddsEx.draw.odds (total_inverse bOddsEx) 1000 * bOddsEx.draw.odds
        = 1000 / total_inverse bOddsEx
    ∧ stakeExact bOddsEx.two.odds (total_inverse bOddsEx) 1000 * bOddsEx.two.odds
        = 1000 / total_inverse bOddsEx
    ∧ 0 < profitExact (total_inverse bOddsEx) 1000
    ∧ 0 < arbPctExact (total_inverse bOddsEx) :=
  c9_exact_invariants bOddsEx 1000 rArbEx (by decide) (by decide) (by decide)
    (by decide)
    (by
      unfold calculate_arbitrage total_inverse arbPctExact stakeExact profitExact
        pyRound roundHalfEven bOddsEx rArbEx
      norm_num
      exact ⟨by decide, by decide⟩)

/-! ## Theorems for best-odds selection -/

/-- Helper: the running maximum over quote values is nonnegative. -/
theorem maxq_nonneg (l : List (String × ℚ)) : 0 ≤ (l.map Prod.snd).foldr max 0 := by
  induction l with
  | nil => simp
  | cons x xs ih => simp only [List.map_cons, List.foldr_cons]; exact le_max_of_le_right ih

/-- Helper: every quote value is bounded by the folded maximum. -/
theorem maxq_le (l : List (String × ℚ)) (x : String × ℚ) (hx : x ∈ l) :
    x.2 ≤ (l.map Prod.snd).foldr max 0 := by
  induction l with
  | nil => cases hx
  | cons y ys ih =>
    rcases List.mem_cons.mp hx with rfl | h
    · simp only [List.map_cons, List.foldr_cons]
      exact le_max_left _ _
    · simp only [List.map_cons, List.foldr_cons]
      exact le_max_of_le_right (ih h)

/-- Helper: a nonzero folded maximum is attained by some quote. -/
theorem maxq_mem (l : List (String × ℚ))
    (h : (l.map Prod.snd).foldr max 0 ≠ 0) :
    ∃ x ∈ l, x.2 = (l.map Prod.snd).foldr max 0 := by
  induction l with
  | nil => simp at h
  | cons y ys ih =>
    simp only [List.map_cons, List.foldr_cons] at h ⊢
    rcases le_total ((ys.map Prod.snd).foldr max 0) y.2 with hle | hle
    · refine ⟨y, List.mem_cons_self _ _, ?_⟩
      exact (max_eq_left hle).symm
    · rw [max_eq_right hle] at h ⊢
      obtain ⟨x, hx, hx2⟩ := ih h
      exact ⟨x, List.mem_cons_of_mem _ hx, hx2⟩

/-- Helper: folding the maximum over an appended singleton. -/
theorem maxq_append_single (l : List (String × ℚ)) (q : String × ℚ) :
    (((l ++ [q]).map Prod.snd).foldr max 0)
      = max ((l.map Prod.snd).foldr max 0) q.2 := by
  induction l with
  | nil =>
    simp only [List.nil_append, List.map_cons, List.map_nil, List.foldr_cons,
      List.foldr_nil]
    rw [max_comm]
  | cons y ys ih =>
    simp only [List.cons_append, List.map_cons, List.foldr_cons, ih]
    rw [max_assoc]

/-- Helper: one `bestStep` update extends the specified best quote by one
quote, provided all quote values are positive. -/
theorem specBestQuote_step (pre : List (String × ℚ)) (q : String × ℚ)
    (h : ∀ x ∈ pre ++ [q], 0 < x.2) :
    bestStep (specBestQuote pre) q = specBestQuote (pre ++ [q]) := by
  have hq : 0 < q.2 := h q (List.mem_append_right _ (List.mem_singleton_self q))
  have hM := maxq_le pre
  unfold bestStep specBestQuote
  rw [maxq_append_single]
  set M := (pre.map Prod.snd).foldr max 0 with hMdef
  rcases lt_or_le M q.2 with hlt | hle
  · rw [if_pos ⟨ne_of_gt hq, hlt⟩, max_eq_right (le_of_lt hlt)]
    have hnone : pre.find? (fun x => decide (x.2 = q.2)) = none := by
      rw [List.find?_eq_none]
      intro x hx
      simp only [decide_eq_true_eq]
      exact ne_of_lt (lt_of_le_of_lt (hM x hx) hlt)
    rw [List.find?_append, hnone, Option.none_or]
    simp
  · rw [if_neg (by rintro ⟨-, hc⟩; exact absurd hc (not_lt.mpr hle)),
      max_eq_left hle]
    have hMpos : 0 < M := lt_of_lt_of_le hq hle
    have hsome : (pre.find? (fun x => decide (x.2 = M))).isSome := by
      rw [List.find?_isSome]
      obtain ⟨x, hx, hx2⟩ := maxq_mem pre (ne_of_gt hMpos)
      exact ⟨x, hx, by simp [hx2]⟩
    obtain ⟨y, hy⟩ := Option.isSome_iff_exists.mp hsome
    rw [List.find?_append, hy]
    rfl

/-- Helper: folding `bestStep` from a specified prefix computes the specified
best quote of the whole list. -/
theorem foldl_bestStep_eq_spec (qs pre : List (String × ℚ))
    (h : ∀ x ∈ pre ++ qs, 0 < x.2) :
    qs.foldl bestStep (specBestQuote pre) = specBestQuote (pre ++ qs) := by
  induction qs generalizing pre with
  | nil => simp
  | cons q qs ih =>
    have h1 : ∀ x ∈ pre ++ [q], 0 < x.2 := by
      intro x hx
      rcases List.mem_append.mp hx with hx | hx
      · exact h x (List.mem_append_left _ hx)
      · exact h x (List.mem_append_right _ (by simp_all))
    have h2 : ∀ x ∈ (pre ++ [q]) ++ qs, 0 < x.2 := by
      intro x hx
      apply h
      simpa using hx
    calc (q :: qs).foldl bestStep (specBestQuote pre)
        = qs.foldl bestStep (bestStep (specBestQuote pre) q) := rfl
      _ = qs.foldl bestStep (specBestQuote (pre ++ [q])) := by
          rw [specBestQuote_step pre q h1]
      _ = specBestQuote ((pre ++ [q]) ++ qs) := ih _ h2
      _ = specBestQuote (pre ++ q :: qs) := by
          rw [List.append_assoc]
          rfl

/-- Helper: `find_best_odds` factors into three independent per-outcome folds
over the quotes visible for each outcome. -/
theorem foldl_fboStep_eq (events : List (String × PEventData)) (cur : BestOdds) :
    events.foldl fboStep cur
      = ⟨(quotesFor events ("1")).foldl bestStep cur.one,
         (quotesFor events ("X")).foldl bestStep cur.draw,
         (quotesFor events ("2")).foldl bestStep cur.two⟩ := by
  induction events generalizing cur with
  | nil => simp [quotesFor]
  | cons p rest ih =>
    have step : (p :: rest).foldl fboStep cur = rest.foldl fboStep (fboStep cur p) := rfl
    rw [step, ih]
    cases h1x2 : p.2.markets.lookup ("1x2") with
    | none =>
      simp [quotesFor, fboStep, h1x2, List.filterMap_cons]
    | some m =>
      have comp : ∀ (key : String) (c : BestQuote),
          (quotesFor (p :: rest) key).foldl bestStep c
            = (quotesFor rest key).foldl bestStep (updOutcome p.1 m.outcomes key c) := by
        intro key c
        cases hk : m.outcomes.lookup key with
        | none => simp [quotesFor, List.filterMap_cons, h1x2, hk, updOutcome]
        | some v => simp [quotesFor, List.filterMap_cons, h1x2, hk, updOutcome]
      simp only [fboStep, h1x2]
      rw [comp ("1") cur.one, comp ("X") cur.draw, comp ("2") cur.two]

/-- Claim C6: for every fixture group whose quoted odds are positive (the data
model guarantees decimal odds of at least 1), `find_best_odds` computes, for
each outcome code independently, the maximum quoted price over all
contributing bookmakers' match-result markets (skipping bookmakers lacking
the market or the outcome), ties keeping the first bookmaker in iteration
order; an outcome with no quotes yields odds 0 and bookmaker none
(`specBestQuote` of the empty quote list). -/
theorem c6_best_odds_selection (events : List (String × PEventData))
    (h1 : ∀ q ∈ quotesFor events ("1"), 0 < q.2)
    (hX : ∀ q ∈ quotesFor events ("X"), 0 < q.2)
    (h2 : ∀ q ∈ quotesFor events ("2"), 0 < q.2) :
    find_best_odds events
      = ⟨specBestQuote (quotesFor events ("1")),
         specBestQuote (quotesFor events ("X")),
         specBestQuote (quotesFor events ("2"))⟩ := by
  unfold find_best_odds
  rw [foldl_fboStep_eq]
  congr 1
  · exact foldl_bestStep_eq_spec _ [] (by simpa using h1)
  · exact foldl_bestStep_eq_spec _ [] (by simpa using hX)
  · exact foldl_bestStep_eq_spec _ [] (by simpa using h2)

/-- Witness for C6 at the concrete mapping `eventsEx`. -/
theorem c6_best_odds_selection_witness :
    find_best_odds eventsEx
      = ⟨specBestQuote (quotesFor eventsEx ("1")),
         specBestQuote (quotesFor eventsEx ("X")),
         specBestQuote (quotesFor eventsEx ("2"))⟩ :=
  c6_best_odds_selection eventsEx (by decide) (by decide) (by decide)

/-! ## Theorems for the name normalizer -/

theorem char_toNat_ofNat_of_valid (n : Nat) (h : n < 55296) :
    (Char.ofNat n).toNat = n := by
  rw [Char.ofNat, dif_pos (Or.inl h)]
  simp [Char.ofNatAux, Char.toNat, UInt32.toNat]

theorem pyLower_pyLower (c : Char) : pyLower (pyLower c) = pyLower c := by
  unfold pyLower Char.toLower
  simp only []
  by_cases h1 : c.toNat ≥ 65 ∧ c.toNat ≤ 90
  · rw [if_pos h1, if_neg]
    rw [char_toNat_ofNat_of_valid (c.toNat + 32) (by omega)]
    omega
  · rw [if_neg h1, if_neg h1]

theorem stable_space : StableChar ' ' := by constructor <;> decide

theorem table_chars_stable :
    ∀ p ∈ greekLatinTable, ∀ c ∈ p.2.data, pyLower c = c ∧ unidecodeChar c = [c] := by
  decide

theorem unidecodeChar_stable (c0 : Char) (h0 : pyLower c0 = c0) :
    ∀ c ∈ unidecodeChar c0, StableChar c := by
  intro c hc
  unfold unidecodeChar at hc
  split_ifs at hc with hlt
  · rcases List.mem_singleton.mp hc with rfl
    exact ⟨h0, by unfold unidecodeChar; rw [if_pos hlt]⟩
  · cases htab : greekLatinTable.lookup c0 with
    | none =>
      rw [htab] at hc
      rcases List.mem_singleton.mp hc with rfl
      refine ⟨h0, ?_⟩
      unfold unidecodeChar
      rw [if_neg hlt, htab]
    | some t =>
      rw [htab] at hc
      obtain ⟨l1, l2, hl, -⟩ := List.lookup_eq_some_iff.mp htab
      have hmem : (c0, t) ∈ greekLatinTable := by
        rw [hl]
        exact List.mem_append_right _ (List.mem_cons_self _ _)
      exact table_chars_stable (c0, t) hmem c hc

theorem lower_unidecode_stable (l : List Char) :
    ∀ c ∈ (l.map pyLower).flatMap unidecodeChar, StableChar c := by
  intro c hc
  rw [List.mem_flatMap] at hc
  obtain ⟨c0, hc0, hc⟩ := hc
  rw [List.mem_map] at hc0
  obtain ⟨c1, -, rfl⟩ := hc0
  exact unidecodeChar_stable (pyLower c1) (pyLower_pyLower c1) c hc

theorem dropTokCI_sub (tr : List Char) :
    ∀ (r rest : List Char), dropTokCI tr r = some rest → ∀ c ∈ rest, c ∈ r := by
  induction tr with
  | nil =>
    intro r rest h c hc
    unfold dropTokCI at h
    cases h
    exact hc
  | cons t ts ih =>
    intro r rest h c hc
    cases r with
    | nil => exact absurd h (by unfold dropTokCI; simp)
    | cons a as =>
      unfold dropTokCI at h
      split_ifs at h
      · exact List.mem_cons_of_mem _ (ih as rest h c hc)

theorem stripTrailing_sub (tok : String) (s : List Char) :
    ∀ c ∈ stripTrailing tok s, c ∈ s := by
  intro c hc
  unfold stripTrailing at hc
  split at hc
  · next r heq =>
    unfold stripRevWs at heq
    cases hdt : dropTokCI tok.data.reverse s.reverse with
    | none => rw [hdt] at heq; exact absurd heq (by simp)
    | some rest =>
      rw [hdt] at heq
      cases rest with
      | nil => exact absurd heq (by simp)
      | cons a as =>
        dsimp only at heq
        split_ifs at heq
        cases heq
        have h1 : c ∈ (a :: as).dropWhile isWs := List.mem_reverse.mp hc
        have h2 : c ∈ (a :: as) := ((a :: as).dropWhile_suffix isWs).subset h1
        have h3 : c ∈ s.reverse := dropTokCI_sub _ _ _ hdt c h2
        exact List.mem_reverse.mp h3
  · exact hc

theorem stripGammaTag_sub (s : List Char) :
    ∀ c ∈ stripGammaTag s, c ∈ s := by
  intro c hc
  unfold stripGammaTag at hc
  split at hc
  · next g rest heq =>
    split_ifs at hc
    · have h1 : c ∈ rest.dropWhile isWs := List.mem_reverse.mp hc
      have h2 : c ∈ rest := (rest.dropWhile_suffix isWs).subset h1
      have h3 : c ∈ s.reverse.dropWhile isWs := by
        rw [heq]
        simp [h2]
      have h4 : c ∈ s.reverse := (s.reverse.dropWhile_suffix isWs).subset h3
      exact List.mem_reverse.mp h4
    · exact hc
  · exact hc

theorem normSpaces_mem :
    ∀ (l : List Char), ∀ c ∈ normSpaces l, c = ' ' ∨ (c ∈ l ∧ isWs c = false) := by
  intro l
  induction l with
  | nil => intro c hc; cases hc
  | cons c0 rest ih =>
    intro c hc
    cases rest with
    | nil =>
      unfold normSpaces at hc
      split_ifs at hc with hws
      · rcases List.mem_singleton.mp hc with rfl
        exact Or.inl rfl
      · rcases List.mem_singleton.mp hc with rfl
        exact Or.inr ⟨List.mem_cons_self _ _, by simpa using hws⟩
    | cons d r2 =>
      unfold normSpaces at hc
      by_cases hww : (isWs c0 && isWs d) = true
      · rw [if_pos hww] at hc
        rcases ih c hc with h | ⟨h1, h2⟩
        · exact Or.inl h
        · exact Or.inr ⟨List.mem_cons_of_mem _ h1, h2⟩
      · rw [if_neg hww] at hc
        rcases List.mem_cons.mp hc with hceq | hmem
        · by_cases hws : isWs c0 = true
          · rw [if_pos hws] at hceq
            exact Or.inl hceq
          · rw [if_neg hws] at hceq
            subst hceq
            exact Or.inr ⟨List.mem_cons_self _ _, by simpa using hws⟩
        · rcases ih c hmem with h | ⟨h1, h2⟩
          · exact Or.inl h
          · exact Or.inr ⟨List.mem_cons_of_mem _ h1, h2⟩

theorem normSpaces_head_of_not_ws (d : Char) (r : List Char) (h : isWs d = false) :
    ∃ t, normSpaces (d :: r) = d :: t := by
  cases r with
  | nil => exact ⟨[], by simp [normSpaces, h]⟩
  | cons e r2 => exact ⟨normSpaces (e :: r2), by rw [normSpaces, if_neg (by simp [h]), if_neg (by simp [h])]⟩

theorem normSpaces_chain :
    ∀ (l : List Char), List.Chain' RnoWs (normSpaces l) := by
  intro l
  induction l with
  | nil => simp [normSpaces]
  | cons c0 rest ih =>
    cases rest with
    | nil =>
      unfold normSpaces
      split_ifs <;> simp
    | cons d r2 =>
      unfold normSpaces
      by_cases hww : (isWs c0 && isWs d) = true
      · rw [if_pos hww]
        exact ih
      · rw [if_neg hww]
        rw [List.chain'_cons']
        refine ⟨?_, ih⟩
        intro h hh
        by_cases hws : isWs c0 = true
        · have hdws : isWs d = false := by
            cases hd : isWs d
            · rfl
            · exact absurd (by simp [hws, hd]) hww
          obtain ⟨t, ht⟩ := normSpaces_head_of_not_ws d r2 hdws
          rw [ht] at hh
          simp at hh
          subst hh
          exact Or.inr hdws
        · rw [if_neg hws]
          exact Or.inl (by simpa using hws)

theorem normSpaces_id (l : List Char)
    (hws : ∀ c ∈ l, isWs c = true → c = ' ')
    (hch : List.Chain' RnoWs l) :
    normSpaces l = l := by
  induction l with
  | nil => rfl
  | cons c0 rest ih =>
    cases rest with
    | nil =>
      by_cases h : isWs c0 = true
      · have : c0 = ' ' := hws c0 (List.mem_cons_self _ _) h
        subst this
        simp [normSpaces]
      · simp [normSpaces, h]
    | cons d r2 =>
      have hrel : RnoWs c0 d := (List.chain'_cons.mp hch).1
      have hww : (isWs c0 && isWs d) = false := by
        rcases hrel with h | h <;> simp [h]
      rw [normSpaces, if_neg (by simp [hww])]
      have htail : normSpaces (d :: r2) = d :: r2 :=
        ih (fun c hc h => hws c (List.mem_cons_of_mem _ hc) h)
          (List.chain'_cons.mp hch).2
      rw [htail]
      by_cases h : isWs c0 = true
      · have : c0 = ' ' := hws c0 (List.mem_cons_self _ _) h
        subst this
        rw [if_pos h]
      · rw [if_neg h]

theorem chain'_dropWhile {R : Char → Char → Prop} (p : Char → Bool)
    (l : List Char) (h : List.Chain' R l) :
    List.Chain' R (l.dropWhile p) := by
  induction l with
  | nil => simp
  | cons a l ih =>
    rw [List.dropWhile_cons]
    split_ifs with hp
    · exact ih (List.Chain'.tail h)
    · exact h

theorem chain'_RnoWs_flip (m : List Char) (h : List.Chain' RnoWs m) :
    List.Chain' (flip RnoWs) m :=
  h.imp fun _ _ hab => hab.symm

theorem chain'_trimWs (l : List Char) (h : List.Chain' RnoWs l) :
    List.Chain' RnoWs (trimWs l) := by
  unfold trimWs
  rw [List.chain'_reverse]
  apply chain'_RnoWs_flip
  apply chain'_dropWhile
  rw [List.chain'_reverse]
  apply chain'_RnoWs_flip
  exact chain'_dropWhile _ _ h

theorem trimWs_mem (l : List Char) : ∀ c ∈ trimWs l, c ∈ l := by
  intro c hc
  unfold trimWs at hc
  rw [List.mem_reverse] at hc
  have h1 := ((l.dropWhile isWs).reverse.dropWhile_suffix isWs).subset hc
  rw [List.mem_reverse] at h1
  exact (l.dropWhile_suffix isWs).subset h1

theorem dropWhile_head_false (p : Char → Bool) (l : List Char) (h : Char)
    (hh : l.head? = some h) (hp : p h = false) : l.dropWhile p = l := by
  cases l with
  | nil => cases hh
  | cons a t =>
    rw [List.head?_cons, Option.some.injEq] at hh
    subst hh
    rw [List.dropWhile_cons, if_neg (by simp [hp])]

theorem dropWhile_getLast (p : Char → Bool) (w : List Char)
    (hne : w.dropWhile p ≠ []) : (w.dropWhile p).getLast? = w.getLast? := by
  obtain ⟨pre, hpre⟩ := w.dropWhile_suffix p
  conv_rhs => rw [← hpre]
  rw [List.getLast?_append]
  cases hgl : (w.dropWhile p).getLast? with
  | none => exact absurd (List.getLast?_eq_none_iff.mp hgl) hne
  | some x => rfl

theorem trimWs_head (l : List Char) (h : Char)
    (hh : (trimWs l).head? = some h) : isWs h = false := by
  unfold trimWs at hh
  rw [List.head?_reverse] at hh
  have hne : (l.dropWhile isWs).reverse.dropWhile isWs ≠ [] := by
    intro hnil
    rw [hnil] at hh
    cases hh
  rw [dropWhile_getLast _ _ hne, List.getLast?_reverse] at hh
  have := List.head?_dropWhile_not isWs l
  rw [hh] at this
  exact this

theorem trimWs_getLast (l : List Char) (h : Char)
    (hh : (trimWs l).getLast? = some h) : isWs h = false := by
  unfold trimWs at hh
  rw [List.getLast?_reverse] at hh
  have := List.head?_dropWhile_not isWs (l.dropWhile isWs).reverse
  rw [hh] at this
  exact this

theorem trimWs_idem (l : List Char) : trimWs (trimWs l) = trimWs l := by
  cases hh : (trimWs l).head? with
  | none =>
    have : trimWs l = [] := List.head?_eq_none_iff.mp hh
    rw [this]
    rfl
  | some h =>
    have h1 : (trimWs l).dropWhile isWs = trimWs l :=
      dropWhile_head_false _ _ h hh (trimWs_head l h hh)
    show ((((trimWs l).dropWhile isWs).reverse).dropWhile isWs).reverse = trimWs l
    rw [h1]
    cases hgl : (trimWs l).getLast? with
    | none =>
      rw [List.getLast?_eq_none_iff.mp hgl]
      rfl
    | some g =>
      have h2 : (trimWs l).reverse.dropWhile isWs = (trimWs l).reverse := by
        apply dropWhile_head_false _ _ g
        · rw [List.head?_reverse]
          exact hgl
        · exact trimWs_getLast l g hgl
      rw [h2, List.reverse_reverse]

theorem isWs_not_word (c : Char) (h : isWs c = true) : isWordChar c = false := by
  unfold isWs at h
  simp only [Bool.or_eq_true, decide_eq_true_eq] at h
  rcases h with ((((h | h) | h) | h) | h) | h <;> subst h <;> decide

theorem cleanChar_ws (c : Char) (hc : CleanChar c) (hw : isWs c = true) : c = ' ' := by
  rcases hc with h | ⟨-, -, -, -, hword⟩
  · exact h
  · exact absurd hword (by simp [isWs_not_word c hw])

theorem map_eq_self_of (f : Char → Char) (l : List Char)
    (h : ∀ c ∈ l, f c = c) : l.map f = l := by
  induction l with
  | nil => rfl
  | cons a t ih =>
    rw [List.map_cons, h a (List.mem_cons_self _ _),
      ih (fun c hc => h c (List.mem_cons_of_mem _ hc))]

theorem flatMap_eq_self_of (f : Char → List Char) (l : List Char)
    (h : ∀ c ∈ l, f c = [c]) : l.flatMap f = l := by
  induction l with
  | nil => rfl
  | cons a t ih =>
    rw [List.flatMap_cons, h a (List.mem_cons_self _ _),
      ih (fun c hc => h c (List.mem_cons_of_mem _ hc))]
    rfl

theorem stripTrailing_noop (tok : String) (s : List Char)
    (h : stripRevWs tok.data.reverse s.reverse = none) :
    stripTrailing tok s = s := by
  unfold stripTrailing
  rw [h]

theorem stripGammaTag_noop (s : List Char) (h : ')' ∉ s) :
    stripGammaTag s = s := by
  unfold stripGammaTag
  split
  · next g rest heq =>
    exfalso
    apply h
    have h1 : ')' ∈ s.reverse.dropWhile isWs := by
      rw [heq]
      exact List.mem_cons_self _ _
    have h2 := (s.reverse.dropWhile_suffix isWs).subset h1
    exact List.mem_reverse.mp h2
  · rfl


/-- The normalization pipeline, written out (equation form of
`normalize_team_name` for a non-empty input). -/
theorem normalize_data (x : String) (hx : ¬ x = "") :
    (normalize_team_name x).data
      = trimWs (normSpaces (((stripGammaTag (stripTrailing ("ac")
          (stripTrailing ("sc") (stripTrailing ("cf") (stripTrailing ("fc")
            ((x.data.map pyLower).flatMap unidecodeChar)))))).map
              punctToSpace).map specialToSpace)) := by
  unfold normalize_team_name
  rw [if_neg hx]

/-- The characters of a normalized team name are clean. -/
theorem normalize_output_clean (x : String) :
    ∀ c ∈ (normalize_team_name x).data, CleanChar c := by
  intro c hc
  by_cases hx : x = ""
  · subst hx
    cases hc
  · rw [normalize_data x hx] at hc
    set s1 := (x.data.map pyLower).flatMap unidecodeChar with hs1
    set s2 := stripTrailing ("fc") s1 with hs2
    set s3 := stripTrailing ("cf") s2 with hs3
    set s4 := stripTrailing ("sc") s3 with hs4
    set s5 := stripTrailing ("ac") s4 with hs5
    set s6 := stripGammaTag s5 with hs6
    set s7 := s6.map punctToSpace with hs7
    set s8 := s7.map specialToSpace with hs8
    have hstable : ∀ c ∈ s6, StableChar c := by
      intro c hc
      apply lower_unidecode_stable x.data
      apply stripTrailing_sub ("fc") s1
      apply stripTrailing_sub ("cf") s2
      apply stripTrailing_sub ("sc") s3
      apply stripTrailing_sub ("ac") s4
      exact stripGammaTag_sub s5 c hc
    have h8 : ∀ c ∈ s8,
        c = ' ' ∨ (StableChar c ∧ c ≠ '.' ∧ c ≠ '-' ∧ c ≠ '_'
          ∧ (isWordChar c || isWs c) = true) := by
      intro c hc
      rw [hs8, List.mem_map] at hc
      obtain ⟨c7, hc7, rfl⟩ := hc
      rw [hs7, List.mem_map] at hc7
      obtain ⟨c6, hc6, rfl⟩ := hc7
      unfold punctToSpace specialToSpace
      split_ifs with hp hw hw
      · exact Or.inl rfl
      · exact Or.inl rfl
      · push_neg at hp
        exact Or.inr ⟨hstable c6 hc6, hp.1, hp.2.1, hp.2.2, hw⟩
      · exact Or.inl rfl
    have hmem : c ∈ normSpaces s8 := trimWs_mem _ c hc
    rcases normSpaces_mem s8 c hmem with h | ⟨hmem8, hnw⟩
    · exact Or.inl h
    · rcases h8 c hmem8 with h | ⟨hst, h1, h2, h3, hword⟩
      · exact Or.inl h
      · refine Or.inr ⟨hst, h1, h2, h3, ?_⟩
        rw [Bool.or_eq_true] at hword
        rcases hword with h | h
        · exact h
        · exact absurd h (by simp [hnw])

theorem cleanChar_pyLower (c : Char) (h : CleanChar c) : pyLower c = c := by
  rcases h with rfl | ⟨hs, -⟩
  · decide
  · exact hs.1

theorem cleanChar_unidecode (c : Char) (h : CleanChar c) : unidecodeChar c = [c] := by
  rcases h with rfl | ⟨hs, -⟩
  · decide
  · exact hs.2

theorem cleanChar_punct (c : Char) (h : CleanChar c) : punctToSpace c = c := by
  rcases h with rfl | ⟨-, h1, h2, h3, -⟩
  · decide
  · unfold punctToSpace
    rw [if_neg]
    rintro (h | h | h) <;> simp_all

theorem cleanChar_special (c : Char) (h : CleanChar c) : specialToSpace c = c := by
  rcases h with rfl | ⟨-, -, -, -, hw⟩
  · decide
  · unfold specialToSpace
    rw [if_pos (by simp [hw])]

theorem cleanChar_not_rparen (c : Char) (h : CleanChar c) : c ≠ ')' := by
  rcases h with rfl | ⟨-, -, -, -, hw⟩
  · decide
  · rintro rfl
    exact absurd hw (by decide)

theorem noTwoWsB_iff_chain (l : List Char) :
    noTwoWsB l = true ↔ List.Chain' RnoWs l := by
  induction l with
  | nil => simp [noTwoWsB]
  | cons c rest ih =>
    cases rest with
    | nil => simp [noTwoWsB]
    | cons d r2 =>
      rw [noTwoWsB, Bool.and_eq_true, ih, List.chain'_cons]
      unfold RnoWs
      constructor
      · rintro ⟨h1, h2⟩
        refine ⟨?_, h2⟩
        cases hc : isWs c
        · exact Or.inl rfl
        · cases hd : isWs d
          · exact Or.inr rfl
          · rw [hc, hd] at h1
            cases h1
      · rintro ⟨h1, h2⟩
        refine ⟨?_, h2⟩
        rcases h1 with h | h <;> simp [h]

theorem noTwoWs_trimNorm (l : List Char) :
    noTwoWsB (trimWs (normSpaces l)) = true :=
  (noTwoWsB_iff_chain _).mpr (chain'_trimWs _ (normSpaces_chain l))

theorem opt_none_of_isSome_false {β : Type} (o : Option β)
    (h : o.isSome = false) : o = none := by
  cases o
  · rfl
  · cases h

theorem normalize_noTwoWs (x : String) :
    noTwoWsB (normalize_team_name x).data = true := by
  by_cases hx : x = ""
  · subst hx
    decide
  · rw [normalize_data x hx]
    exact noTwoWs_trimNorm _
theorem dropTokCI_decomp (tr : List Char) :
    ∀ (r rest : List Char), dropTokCI tr r = some rest →
      ∃ pre, r = pre ++ rest ∧ pre.map pyLower = tr := by
  induction tr with
  | nil =>
    intro r rest h
    unfold dropTokCI at h
    cases h
    exact ⟨[], rfl, rfl⟩
  | cons t ts ih =>
    intro r rest h
    cases r with
    | nil => exact absurd h (by unfold dropTokCI; simp)
    | cons a as =>
      unfold dropTokCI at h
      split_ifs at h with heq
      obtain ⟨pre, hpre, hmap⟩ := ih as rest h
      exact ⟨a :: pre, by rw [List.cons_append, hpre],
        by rw [List.map_cons, hmap, heq]⟩
/-- Claim C4, amended core: a second normalization pass is the identity as
soon as the normalized form does not end in a whitespace-preceded club-suffix
token. -/
theorem normalize_idem_of_no_suffix (x : String)
    (h : hasTrailingClubSuffix (normalize_team_name x) = false) :
    normalize_team_name (normalize_team_name x) = normalize_team_name x := by
  by_cases hynil : normalize_team_name x = ""
  · rw [hynil]
    decide
  · have hx : ¬ x = "" := by
      intro hx
      subst hx
      exact hynil rfl
    have hclean := normalize_output_clean x
    have hchain : List.Chain' RnoWs (normalize_team_name x).data :=
      (noTwoWsB_iff_chain _).mp (normalize_noTwoWs x)
    unfold hasTrailingClubSuffix at h
    simp only [Bool.or_eq_false_iff] at h
    obtain ⟨⟨⟨hfc, hcf⟩, hsc⟩, hac⟩ := h
    have hdata : (normalize_team_name (normalize_team_name x)).data
        = (normalize_team_name x).data := by
      rw [normalize_data _ hynil]
      rw [map_eq_self_of pyLower _
        (fun c hc => cleanChar_pyLower c (hclean c hc))]
      rw [flatMap_eq_self_of unidecodeChar _
        (fun c hc => cleanChar_unidecode c (hclean c hc))]
      rw [stripTrailing_noop ("fc") _ (opt_none_of_isSome_false _ hfc)]
      rw [stripTrailing_noop ("cf") _ (opt_none_of_isSome_false _ hcf)]
      rw [stripTrailing_noop ("sc") _ (opt_none_of_isSome_false _ hsc)]
      rw [stripTrailing_noop ("ac") _ (opt_none_of_isSome_false _ hac)]
      rw [stripGammaTag_noop _
        (fun hmem => cleanChar_not_rparen _ (hclean _ hmem) rfl)]
      rw [map_eq_self_of punctToSpace _
        (fun c hc => cleanChar_punct c (hclean c hc))]
      rw [map_eq_self_of specialToSpace _
        (fun c hc => cleanChar_special c (hclean c hc))]
      rw [normSpaces_id _
        (fun c hc hw => cleanChar_ws c (hclean c hc) hw) hchain]
      rw [normalize_data x hx, trimWs_idem]
    cases hn2 : normalize_team_name (normalize_team_name x) with
    | mk d2 =>
      cases hn1 : normalize_team_name x with
      | mk d1 =>
        rw [hn2, hn1] at hdata
        simp only [String.data] at hdata
        exact congrArg String.mk hdata

theorem stripTrailing_strips_only_wsTok (tok : String) (s : List Char) :
    stripTrailing tok s = s ∨
      ∃ w tl, s = stripTrailing tok s ++ w ++ tl ∧ w ≠ []
        ∧ (∀ c ∈ w, isWs c = true) ∧ tl.map pyLower = tok.data := by
  unfold stripTrailing
  cases hrv : stripRevWs tok.data.reverse s.reverse with
  | none => exact Or.inl rfl
  | some r =>
    right
    unfold stripRevWs at hrv
    cases hdt : dropTokCI tok.data.reverse s.reverse with
    | none => rw [hdt] at hrv; exact absurd hrv (by simp)
    | some rest =>
      rw [hdt] at hrv
      cases rest with
      | nil => exact absurd hrv (by simp)
      | cons c cs =>
        dsimp only at hrv
        split_ifs at hrv with hws
        rw [Option.some.injEq] at hrv
        subst hrv
        obtain ⟨pre, hpre, hmap⟩ := dropTokCI_decomp _ _ _ hdt
        refine ⟨(List.takeWhile isWs (c :: cs)).reverse, pre.reverse, ?_, ?_, ?_, ?_⟩
        · have hsplit : c :: cs
              = List.takeWhile isWs (c :: cs) ++ List.dropWhile isWs (c :: cs) :=
            (List.takeWhile_append_dropWhile (p := isWs) (l := c :: cs)).symm
          have : s.reverse = pre ++ (List.takeWhile isWs (c :: cs)
              ++ List.dropWhile isWs (c :: cs)) := by
            rw [← hsplit]
            exact hpre
          calc s = s.reverse.reverse := (List.reverse_reverse s).symm
            _ = (pre ++ (List.takeWhile isWs (c :: cs)
                  ++ List.dropWhile isWs (c :: cs))).reverse := by rw [this]
            _ = (List.dropWhile isWs (c :: cs)).reverse
                  ++ (List.takeWhile isWs (c :: cs)).reverse ++ pre.reverse := by
                rw [← List.append_assoc, ← List.reverse_append, ← hsplit]
                simp
        · rw [List.takeWhile_cons, if_pos hws]
          simp
        · intro x hx
          rw [List.mem_reverse] at hx
          exact List.mem_takeWhile_imp hx
        · rw [List.map_reverse, hmap, List.reverse_reverse]

/-- Claim C4, counterexample: team-name normalization is not idempotent.
For the input "a fc fc" one pass strips only the last suffix token
(giving "a fc"), and a second pass strips again (giving "a"). -/
theorem c4_normalize_idempotence_cx :
    normalize_team_name (normalize_team_name ("a fc fc"))
      ≠ normalize_team_name ("a fc fc") := by decide

/-- Witness for C4's amended theorem at the concrete input "Real Madrid". -/
theorem c4_normalize_idempotence_witness :
    normalize_team_name (normalize_team_name ("Real Madrid"))
      = normalize_team_name ("Real Madrid") :=
  normalize_idem_of_no_suffix ("Real Madrid") (by decide)

/-- Claim C8, counterexample: the suffix token "CF" in "Milan CF FC" is not
the last whitespace-delimited token of the name, yet normalization strips it
(the four suffix patterns are applied in sequence, so stripping the final
"FC" exposes "CF" to the next pattern).  The claim predicts "milan cf". -/
theorem c8_suffix_cascade_cx :
    normalize_team_name ("Milan CF FC") = "milan"
    ∧ normalize_team_name ("Milan CF FC") ≠ "milan cf" := by
  constructor <;> decide

/-- Claim C8, amended: each of the four suffix patterns (applied in the order
FC, CF, SC, AC) strips a club-suffix token only when it stands,
whitespace-preceded, at the end of the then-current string — so
normalize("Real Madrid FC") = normalize("Real Madrid") and
normalize("FC Barcelona") keeps its leading "fc" — but the sequential
application can also strip an immediately preceding suffix token of a
later-ordered pattern, as in "Arsenal SC FC" → "arsenal".  The last conjunct
states the general fact: a strip removes exactly a whitespace run followed by
the (case-insensitive) token from the end, or changes nothing. -/
theorem c8_suffix_stripping_amended :
    normalize_team_name ("Real Madrid FC") = normalize_team_name ("Real Madrid")
    ∧ normalize_team_name ("FC Barcelona") = "fc barcelona"
    ∧ normalize_team_name ("Arsenal SC FC") = "arsenal"
    ∧ ∀ (tok : String) (s : List Char),
        stripTrailing tok s = s ∨
          ∃ w tl, s = stripTrailing tok s ++ w ++ tl ∧ w ≠ []
            ∧ (∀ c ∈ w, isWs c = true) ∧ tl.map pyLower = tok.data :=
  ⟨by decide, by decide, by decide, stripTrailing_strips_only_wsTok⟩

/-! ## Theorems for the cross-source matcher -/

/-- Helper: the head of the stable descending sort is the first key
attaining the maximal count. -/
theorem isort_head_firstMaxKey (f : String → ℕ) (ks : List String) :
    ∀ k, (isort (fun a b => decide (f b ≤ f a)) (k :: ks)).head?
      = some (firstMaxKey f k ks) := by
  induction ks with
  | nil => intro k; rfl
  | cons k' ks ih =>
    intro k
    have hstep : isort (fun a b => decide (f b ≤ f a)) (k :: k' :: ks)
        = insertSorted (fun a b => decide (f b ≤ f a)) k
            (isort (fun a b => decide (f b ≤ f a)) (k' :: ks)) := rfl
    cases hs : isort (fun a b => decide (f b ≤ f a)) (k' :: ks) with
    | nil =>
      have := ih k'
      rw [hs] at this
      cases this
    | cons h t =>
      have hh : h = firstMaxKey f k' ks := by
        have := ih k'
        rw [hs] at this
        simpa using this
      rw [hstep, hs]
      unfold insertSorted
      rw [show firstMaxKey f k (k' :: ks)
          = (if f k < f (firstMaxKey f k' ks) then firstMaxKey f k' ks else k)
        from rfl]
      rw [← hh]
      by_cases hle : f h ≤ f k
      · rw [if_pos (by simpa using hle), if_neg (by omega)]
        rfl
      · rw [if_neg (by simpa using hle), if_pos (by omega)]
        rfl

/-- Helper: characterization of one bookmaker-list scan with the
stop-at-first-match policy of `EventMatcher.match_events`. -/
theorem scanList_true_char (pr : Event → Bool) (bk : String) :
    ∀ (evs : List Event) (j : ℕ) (g : MGroup) (c : List (String × ℕ)),
      (∃ k, ∃ hk : k < evs.length,
        pr (evs.get ⟨k, hk⟩) = true ∧ (bk, j + k) ∉ c
        ∧ (∀ i, ∀ hi : i < k,
            ¬(pr (evs.get ⟨i, hi.trans hk⟩) = true ∧ (bk, j + i) ∉ c))
        ∧ scanList true pr bk j evs g c
            = (addEvent g (bk, j + k) (evs.get ⟨k, hk⟩), (bk, j + k) :: c))
      ∨ ((∀ k, ∀ hk : k < evs.length,
            ¬(pr (evs.get ⟨k, hk⟩) = true ∧ (bk, j + k) ∉ c))
        ∧ scanList true pr bk j evs g c = (g, c)) := by
  intro evs
  induction evs with
  | nil =>
    intro j g c
    right
    exact ⟨fun k hk => absurd hk (by simp), rfl⟩
  | cons e rest ih =>
    intro j g c
    by_cases hmem : (bk, j) ∈ c
    · have hred : scanList true pr bk j (e :: rest) g c
          = scanList true pr bk (j + 1) rest g c := by
        rw [scanList, if_pos hmem]
      rcases ih (j + 1) g c with ⟨k, hk, hpk, hnk, hall, heq⟩ | ⟨hall, heq⟩
      · left
        refine ⟨k + 1, by simp only [List.length_cons]; omega, ?_, ?_, ?_, ?_⟩
        · simpa using hpk
        · have : j + (k + 1) = j + 1 + k := by omega
          rw [this]
          exact hnk
        · intro i hi
          cases i with
          | zero =>
            rintro ⟨-, hnc⟩
            exact hnc (by simpa using hmem)
          | succ i' =>
            have hi' : i' < k := by omega
            have := hall i' hi'
            intro hcon
            apply this
            have : j + 1 + i' = j + (i' + 1) := by omega
            rw [this]
            simpa using hcon
        · rw [hred, heq]
          have : j + 1 + k = j + (k + 1) := by omega
          rw [this]
          rfl
      · right
        refine ⟨?_, by rw [hred, heq]⟩
        intro k hk
        cases k with
        | zero =>
          rintro ⟨-, hnc⟩
          exact hnc (by simpa using hmem)
        | succ k' =>
          have hk' : k' < rest.length := by simpa using hk
          intro hcon
          apply hall k' hk'
          have : j + 1 + k' = j + (k' + 1) := by omega
          rw [this]
          simpa using hcon
    · by_cases hpr : pr e = true
      · left
        refine ⟨0, by simp, by simpa using hpr, by simpa using hmem,
          fun i hi => absurd hi (by omega), ?_⟩
        rw [scanList, if_neg hmem]
        simp only [hpr, if_true]
        rfl
      · have hred : scanList true pr bk j (e :: rest) g c
            = scanList true pr bk (j + 1) rest g c := by
          rw [scanList, if_neg hmem]
          simp only [Bool.not_eq_true] at hpr
          simp [hpr]
        rcases ih (j + 1) g c with ⟨k, hk, hpk, hnk, hall, heq⟩ | ⟨hall, heq⟩
        · left
          refine ⟨k + 1, by simp only [List.length_cons]; omega, by simpa using hpk, ?_, ?_, ?_⟩
          · have : j + (k + 1) = j + 1 + k := by omega
            rw [this]
            exact hnk
          · intro i hi
            cases i with
            | zero =>
              rintro ⟨hp0, -⟩
              simp only [List.get] at hp0
              exact absurd hp0 hpr
            | succ i' =>
              have hi' : i' < k := by omega
              intro hcon
              apply hall i' hi'
              have : j + 1 + i' = j + (i' + 1) := by omega
              rw [this]
              simpa using hcon
          · rw [hred, heq]
            have : j + 1 + k = j + (k + 1) := by omega
            rw [this]
            rfl
        · right
          refine ⟨?_, by rw [hred, heq]⟩
          intro k hk
          cases k with
          | zero =>
            rintro ⟨hp0, -⟩
            simp only [List.get] at hp0
            exact absurd hp0 hpr
          | succ k' =>
            have hk' : k' < rest.length := by simpa using hk
            intro hcon
            apply hall k' hk'
            have : j + 1 + k' = j + (k' + 1) := by omega
            rw [this]
            simpa using hcon

/-- Helper: consumed-set membership after one bookmaker-list scan with the
no-stop policy of `purify_events`. -/
theorem scanList_false_mem (pr : Event → Bool) (bk : String) :
    ∀ (evs : List Event) (j : ℕ) (g : MGroup) (c : List (String × ℕ))
      (p : String × ℕ),
      p ∈ (scanList false pr bk j evs g c).2 ↔
        p ∈ c ∨ ∃ k, ∃ hk : k < evs.length,
          p = (bk, j + k) ∧ pr (evs.get ⟨k, hk⟩) = true ∧ (bk, j + k) ∉ c := by
  intro evs
  induction evs with
  | nil =>
    intro j g c p
    constructor
    · intro h
      exact Or.inl h
    · rintro (h | ⟨k, hk, -⟩)
      · exact h
      · exact absurd hk (by simp)
  | cons e rest ih =>
    intro j g c p
    by_cases hmem : (bk, j) ∈ c
    · have hred : scanList false pr bk j (e :: rest) g c
          = scanList false pr bk (j + 1) rest g c := by
        rw [scanList, if_pos hmem]
      rw [hred, ih (j + 1) g c p]
      constructor
      · rintro (h | ⟨k, hk, hp, hpk, hnc⟩)
        · exact Or.inl h
        · refine Or.inr ⟨k + 1, by simp only [List.length_cons]; omega, ?_, ?_, ?_⟩
          · rw [hp]
            have : j + 1 + k = j + (k + 1) := by omega
            rw [this]
          · simpa using hpk
          · have : j + (k + 1) = j + 1 + k := by omega
            rw [this]
            exact hnc
      · rintro (h | ⟨k, hk, hp, hpk, hnc⟩)
        · exact Or.inl h
        · cases k with
          | zero =>
            simp only [Nat.add_zero] at hnc
            exact absurd hmem hnc
          | succ k' =>
            refine Or.inr ⟨k', by simpa using hk, ?_, ?_, ?_⟩
            · rw [hp]
              have : j + (k' + 1) = j + 1 + k' := by omega
              rw [this]
            · simpa using hpk
            · have : j + 1 + k' = j + (k' + 1) := by omega
              rw [this]
              exact hnc
    · by_cases hpr : pr e = true
      · have hred : scanList false pr bk j (e :: rest) g c
            = scanList false pr bk (j + 1) rest (addEvent g (bk, j) e)
                ((bk, j) :: c) := by
          rw [scanList, if_neg hmem]
          simp only [hpr, if_true]
          rfl
        rw [hred, ih (j + 1) _ _ p]
        constructor
        · rintro (h | ⟨k, hk, hp, hpk, hnc⟩)
          · rcases List.mem_cons.mp h with rfl | h
            · exact Or.inr ⟨0, by simp, by simp, by simpa using hpr,
                by simpa using hmem⟩
            · exact Or.inl h
          · have hnc' : (bk, j + 1 + k) ∉ c := fun hx =>
              hnc (List.mem_cons_of_mem _ hx)
            refine Or.inr ⟨k + 1, by simp only [List.length_cons]; omega, ?_, ?_, ?_⟩
            · rw [hp]
              have : j + 1 + k = j + (k + 1) := by omega
              rw [this]
            · simpa using hpk
            · have : j + (k + 1) = j + 1 + k := by omega
              rw [this]
              exact hnc'
        · rintro (h | ⟨k, hk, hp, hpk, hnc⟩)
          · exact Or.inl (List.mem_cons_of_mem _ h)
          · cases k with
            | zero =>
              simp only [Nat.add_zero] at hp
              subst hp
              exact Or.inl (List.mem_cons_self _ _)
            | succ k' =>
              refine Or.inr ⟨k', by simpa using hk, ?_, ?_, ?_⟩
              · rw [hp]
                have : j + (k' + 1) = j + 1 + k' := by omega
                rw [this]
              · simpa using hpk
              · have heq : j + 1 + k' = j + (k' + 1) := by omega
                rw [heq]
                intro hx
                rcases List.mem_cons.mp hx with hx | hx
                · have : j + (k' + 1) ≠ j := by omega
                  exact this (congrArg Prod.snd hx)
                · exact hnc hx
      · have hred : scanList false pr bk j (e :: rest) g c
            = scanList false pr bk (j + 1) rest g c := by
          rw [scanList, if_neg hmem]
          simp only [Bool.not_eq_true] at hpr
          simp [hpr]
        rw [hred, ih (j + 1) g c p]
        constructor
        · rintro (h | ⟨k, hk, hp, hpk, hnc⟩)
          · exact Or.inl h
          · refine Or.inr ⟨k + 1, by simp only [List.length_cons]; omega, ?_, ?_, ?_⟩
            · rw [hp]
              have : j + 1 + k = j + (k + 1) := by omega
              rw [this]
            · simpa using hpk
            · have : j + (k + 1) = j + 1 + k := by omega
              rw [this]
              exact hnc
        · rintro (h | ⟨k, hk, hp, hpk, hnc⟩)
          · exact Or.inl h
          · cases k with
            | zero =>
              simp only [List.get] at hpk
              exact absurd hpk hpr
            | succ k' =>
              refine Or.inr ⟨k', by simpa using hk, ?_, ?_, ?_⟩
              · rw [hp]
                have : j + (k' + 1) = j + 1 + k' := by omega
                rw [this]
              · simpa using hpk
              · have : j + 1 + k' = j + (k' + 1) := by omega
                rw [this]
                exact hnc

/-- Helper: a dictionary insert adds one source pair, keeping the others. -/
theorem pairs_dinsert (k : String) (v : (String × ℕ) × Event)
    (l : List (String × ((String × ℕ) × Event))) :
    ∀ q ∈ (dinsert k v l).map (fun x => x.2.1),
      q = v.1 ∨ q ∈ l.map (fun x => x.2.1) := by
  induction l with
  | nil =>
    intro q hq
    simp [dinsert] at hq
    exact Or.inl hq
  | cons a t ih =>
    intro q hq
    unfold dinsert at hq
    split_ifs at hq
    · rw [List.map_cons] at hq
      rcases List.mem_cons.mp hq with h | h
      · exact Or.inl h
      · rw [List.map_cons]
        exact Or.inr (List.mem_cons_of_mem _ h)
    · rw [List.map_cons] at hq
      rcases List.mem_cons.mp hq with h | h
      · rw [List.map_cons]
        exact Or.inr (h ▸ List.mem_cons_self _ _)
      · rcases ih q h with h | h
        · exact Or.inl h
        · rw [List.map_cons]
          exact Or.inr (List.mem_cons_of_mem _ h)

/-- Helper: a dictionary insert with a fresh source pair preserves
distinctness of a group's source pairs. -/
theorem pairs_dinsert_nodup (k : String) (v : (String × ℕ) × Event)
    (l : List (String × ((String × ℕ) × Event)))
    (hfresh : v.1 ∉ l.map (fun x => x.2.1))
    (hnodup : (l.map (fun x => x.2.1)).Nodup) :
    ((dinsert k v l).map (fun x => x.2.1)).Nodup := by
  induction l with
  | nil => simp [dinsert]
  | cons a t ih =>
    rw [List.map_cons] at hfresh hnodup
    have hvna : v.1 ∉ t.map (fun x => x.2.1) := fun h =>
      hfresh (List.mem_cons_of_mem _ h)
    have hva : v.1 ≠ a.2.1 := fun h => hfresh (h ▸ List.mem_cons_self _ _)
    unfold dinsert
    split_ifs
    · rw [List.map_cons]
      exact List.nodup_cons.mpr ⟨hvna, (List.nodup_cons.mp hnodup).2⟩
    · rw [List.map_cons]
      apply List.nodup_cons.mpr
      refine ⟨?_, ih hvna (List.nodup_cons.mp hnodup).2⟩
      intro hmem
      rcases pairs_dinsert k v t a.2.1 hmem with h | h
      · exact hva h.symm
      · exact (List.nodup_cons.mp hnodup).1 h

/-- Helper: state invariant of one bookmaker-list scan: it consumes a
distinct batch of fresh pairs, and the group only ever holds consumed
pairs, one occurrence each. -/
theorem scanList_state (stop : Bool) (pr : Event → Bool) (bk : String) :
    ∀ (evs : List Event) (j : ℕ) (g : MGroup) (c : List (String × ℕ)),
      (∀ p ∈ groupPairs g, p ∈ c) → (groupPairs g).Nodup → c.Nodup →
      ∃ Δ, (scanList stop pr bk j evs g c).2 = Δ ++ c
        ∧ (∀ p ∈ Δ, p ∉ c)
        ∧ (scanList stop pr bk j evs g c).2.Nodup
        ∧ (∀ p ∈ groupPairs (scanList stop pr bk j evs g c).1,
            p ∈ groupPairs g ∨ p ∈ Δ)
        ∧ (groupPairs (scanList stop pr bk j evs g c).1).Nodup
        ∧ (∀ p ∈ groupPairs (scanList stop pr bk j evs g c).1,
            p ∈ (scanList stop pr bk j evs g c).2) := by
  intro evs
  induction evs with
  | nil =>
    intro j g c hsub hgn hcn
    refine ⟨[], rfl, by simp, hcn, fun p hp => Or.inl hp, hgn, hsub⟩
  | cons e rest ih =>
    intro j g c hsub hgn hcn
    by_cases hmem : (bk, j) ∈ c
    · have hred : scanList stop pr bk j (e :: rest) g c
          = scanList stop pr bk (j + 1) rest g c := by
        rw [scanList, if_pos hmem]
      rw [hred]
      exact ih (j + 1) g c hsub hgn hcn
    · by_cases hpr : pr e = true
      · have hfreshg : (bk, j) ∉ groupPairs g := fun h => hmem (hsub _ h)
        have hsub' : ∀ p ∈ groupPairs (addEvent g (bk, j) e), p ∈ (bk, j) :: c := by
          intro p hp
          rcases pairs_dinsert e.booker ((bk, j), e) g.entries p hp with h | h
          · exact h ▸ List.mem_cons_self _ _
          · exact List.mem_cons_of_mem _ (hsub p h)
        have hgn' : (groupPairs (addEvent g (bk, j) e)).Nodup :=
          pairs_dinsert_nodup _ _ _ hfreshg hgn
        have hcn' : ((bk, j) :: c).Nodup := List.nodup_cons.mpr ⟨hmem, hcn⟩
        cases stop with
        | true =>
          have hred : scanList true pr bk j (e :: rest) g c
              = (addEvent g (bk, j) e, (bk, j) :: c) := by
            rw [scanList, if_neg hmem]
            simp only [hpr, if_true]
          rw [hred]
          refine ⟨[(bk, j)], rfl, by simpa using hmem, hcn', ?_, hgn', hsub'⟩
          intro p hp
          rcases pairs_dinsert e.booker ((bk, j), e) g.entries p hp with h | h
          · exact Or.inr (h ▸ List.mem_singleton_self _)
          · exact Or.inl h
        | false =>
          have hred : scanList false pr bk j (e :: rest) g c
              = scanList false pr bk (j + 1) rest (addEvent g (bk, j) e)
                  ((bk, j) :: c) := by
            rw [scanList, if_neg hmem]
            simp only [hpr, if_true]
            rfl
          rw [hred]
          obtain ⟨Δ, he, hf, hn2, hgsub, hgn2, hgc⟩ :=
            ih (j + 1) (addEvent g (bk, j) e) ((bk, j) :: c) hsub' hgn' hcn'
          refine ⟨Δ ++ [(bk, j)], ?_, ?_, hn2, ?_, hgn2, hgc⟩
          · rw [he, List.append_assoc]
            rfl
          · intro p hp
            rcases List.mem_append.mp hp with h | h
            · intro hmc
              exact hf p h (List.mem_cons_of_mem _ hmc)
            · rcases List.mem_singleton.mp h with rfl
              exact hmem
          · intro p hp
            rcases hgsub p hp with h | h
            · rcases pairs_dinsert e.booker ((bk, j), e) g.entries p h with h2 | h2
              · exact Or.inr (h2 ▸ List.mem_append_right _ (List.mem_singleton_self _))
              · exact Or.inl h2
            · exact Or.inr (List.mem_append_left _ h)
      · have hred : scanList stop pr bk j (e :: rest) g c
            = scanList stop pr bk (j + 1) rest g c := by
          rw [scanList, if_neg hmem]
          simp only [Bool.not_eq_true] at hpr
          simp [hpr]
        rw [hred]
        exact ih (j + 1) g c hsub hgn hcn

/-- Helper: the scan over all non-reference bookmakers preserves the
consumption invariants. -/
theorem scanBookmakers_state (stop : Bool) (pr : Event → Event → Bool)
    (input : List (String × List Event)) (seed : Event) :
    ∀ (names : List String) (g : MGroup) (c : List (String × ℕ)),
      (∀ p ∈ groupPairs g, p ∈ c) → (groupPairs g).Nodup → c.Nodup →
      ∃ Δ, (scanBookmakers stop pr input seed names g c).2 = Δ ++ c
        ∧ (∀ p ∈ Δ, p ∉ c)
        ∧ (scanBookmakers stop pr input seed names g c).2.Nodup
        ∧ (∀ p ∈ groupPairs (scanBookmakers stop pr input seed names g c).1,
            p ∈ groupPairs g ∨ p ∈ Δ)
        ∧ (groupPairs (scanBookmakers stop pr input seed names g c).1).Nodup
        ∧ (∀ p ∈ groupPairs (scanBookmakers stop pr input seed names g c).1,
            p ∈ (scanBookmakers stop pr input seed names g c).2) := by
  intro names
  induction names with
  | nil =>
    intro g c hsub hgn hcn
    exact ⟨[], rfl, by simp, hcn, fun p hp => Or.inl hp, hgn, hsub⟩
  | cons bk bks ih =>
    intro g c hsub hgn hcn
    have hred : scanBookmakers stop pr input seed (bk :: bks) g c
        = scanBookmakers stop pr input seed bks
            (scanList stop (pr seed) bk 0 ((input.lookup bk).getD []) g c).1
            (scanList stop (pr seed) bk 0 ((input.lookup bk).getD []) g c).2 := rfl
    obtain ⟨Δ1, he1, hf1, hn1, hg1, hgn1, hgc1⟩ :=
      scanList_state stop (pr seed) bk ((input.lookup bk).getD []) 0 g c hsub hgn hcn
    obtain ⟨Δ2, he2, hf2, hn2, hg2, hgn2, hgc2⟩ :=
      ih (scanList stop (pr seed) bk 0 ((input.lookup bk).getD []) g c).1
        (scanList stop (pr seed) bk 0 ((input.lookup bk).getD []) g c).2
        hgc1 hgn1 hn1
    rw [hred]
    refine ⟨Δ2 ++ Δ1, ?_, ?_, hn2, ?_, hgn2, hgc2⟩
    · rw [he2, he1, List.append_assoc]
    · intro p hp
      rcases List.mem_append.mp hp with h | h
      · intro hmc
        apply hf2 p h
        rw [he1]
        exact List.mem_append_right _ hmc
      · exact hf1 p h
    · intro p hp
      rcases hg2 p hp with h | h
      · rcases hg1 p h with h2 | h2
        · exact Or.inl h2
        · exact Or.inr (List.mem_append_right _ h2)
      · exact Or.inr (List.mem_append_left _ h)

/-- Helper: the seed loop maintains distinct consumption, groups whose
pairs are consumed, pairwise-disjoint groups, and per-group distinctness. -/
theorem seedLoop_inv (stop : Bool) (pr : Event → Event → Bool) (minCov : ℕ)
    (input : List (String × List Event)) (refBk : String) (others : List String) :
    ∀ (evs : List Event) (i : ℕ) (gs : List MGroup) (c : List (String × ℕ)),
      c.Nodup →
      (∀ g ∈ gs, ∀ p ∈ groupPairs g, p ∈ c) →
      List.Pairwise GDisj gs →
      (∀ g ∈ gs, (groupPairs g).Nodup) →
      (seedLoop stop pr minCov input refBk others i evs gs c).2.Nodup
      ∧ (∀ g ∈ (seedLoop stop pr minCov input refBk others i evs gs c).1,
          ∀ p ∈ groupPairs g,
            p ∈ (seedLoop stop pr minCov input refBk others i evs gs c).2)
      ∧ List.Pairwise GDisj (seedLoop stop pr minCov input refBk others i evs gs c).1
      ∧ (∀ g ∈ (seedLoop stop pr minCov input refBk others i evs gs c).1,
          (groupPairs g).Nodup) := by
  intro evs
  induction evs with
  | nil =>
    intro i gs c hcn hsub hpw hnd
    exact ⟨hcn, hsub, hpw, hnd⟩
  | cons e rest ih =>
    intro i gs c hcn hsub hpw hnd
    by_cases hmem : (refBk, i) ∈ c
    · have hred : seedLoop stop pr minCov input refBk others i (e :: rest) gs c
          = seedLoop stop pr minCov input refBk others (i + 1) rest gs c := by
        rw [seedLoop, if_pos hmem]
      rw [hred]
      exact ih (i + 1) gs c hcn hsub hpw hnd
    · have hg0 : groupPairs (addEvent ⟨e.home, e.away, e.league, []⟩ (refBk, i) e)
          = [(refBk, i)] := rfl
      have hsub0 : ∀ p ∈ groupPairs (addEvent ⟨e.home, e.away, e.league, []⟩
          (refBk, i) e), p ∈ (refBk, i) :: c := by
        rw [hg0]
        intro p hp
        rcases List.mem_singleton.mp hp with rfl
        exact List.mem_cons_self _ _
      have hcn1 : ((refBk, i) :: c).Nodup := List.nodup_cons.mpr ⟨hmem, hcn⟩
      obtain ⟨Δ, he, hf, hn2, hgsub, hgn2, hgc⟩ :=
        scanBookmakers_state stop pr input e others
          (addEvent ⟨e.home, e.away, e.league, []⟩ (refBk, i) e) ((refBk, i) :: c)
          hsub0 (by rw [hg0]; simp) hcn1
      have hred : seedLoop stop pr minCov input refBk others i (e :: rest) gs c
          = seedLoop stop pr minCov input refBk others (i + 1) rest
              (if minCov ≤ (scanBookmakers stop pr input e others
                  (addEvent ⟨e.home, e.away, e.league, []⟩ (refBk, i) e)
                  ((refBk, i) :: c)).1.entries.length
                then gs ++ [(scanBookmakers stop pr input e others
                  (addEvent ⟨e.home, e.away, e.league, []⟩ (refBk, i) e)
                  ((refBk, i) :: c)).1]
                else gs)
              (scanBookmakers stop pr input e others
                (addEvent ⟨e.home, e.away, e.league, []⟩ (refBk, i) e)
                ((refBk, i) :: c)).2 := by
        rw [seedLoop, if_neg hmem]
      rw [hred]
      set r1 := scanBookmakers stop pr input e others
        (addEvent ⟨e.home, e.away, e.league, []⟩ (refBk, i) e) ((refBk, i) :: c)
        with hr1
      -- memberships of the old consumed list carry into the new one
      have hcsub : ∀ p ∈ c, p ∈ r1.2 := by
        intro p hp
        rw [he]
        exact List.mem_append_right _ (List.mem_cons_of_mem _ hp)
      have hsub' : ∀ g ∈ (if minCov ≤ r1.1.entries.length
          then gs ++ [r1.1] else gs), ∀ p ∈ groupPairs g, p ∈ r1.2 := by
        intro g hg p hp
        split_ifs at hg with hcov
        · rcases List.mem_append.mp hg with h | h
          · exact hcsub p (hsub g h p hp)
          · rcases List.mem_singleton.mp h with rfl
            exact hgc p hp
        · exact hcsub p (hsub g hg p hp)
      have hdisj : ∀ g ∈ gs, GDisj g r1.1 := by
        intro g hg p hp hpr1
        have hpc : p ∈ c := hsub g hg p hp
        rcases hgsub p hpr1 with h | h
        · rw [hg0] at h
          rcases List.mem_singleton.mp h with rfl
          exact hmem hpc
        · exact hf p h (List.mem_cons_of_mem _ hpc)
      have hpw' : List.Pairwise GDisj (if minCov ≤ r1.1.entries.length
          then gs ++ [r1.1] else gs) := by
        split_ifs with hcov
        · rw [List.pairwise_append]
          exact ⟨hpw, List.pairwise_singleton _ _,
            fun a ha b hb => (List.mem_singleton.mp hb) ▸ hdisj a ha⟩
        · exact hpw
      have hnd' : ∀ g ∈ (if minCov ≤ r1.1.entries.length
          then gs ++ [r1.1] else gs), (groupPairs g).Nodup := by
        intro g hg
        split_ifs at hg with hcov
        · rcases List.mem_append.mp hg with h | h
          · exact hnd g h
          · rcases List.mem_singleton.mp h with rfl
            exact hgn2
        · exact hnd g hg
      exact ih (i + 1) _ r1.2 hn2 hsub' hpw' hnd'


/-- Claim C1, counterexample: in the production purifier profile, scanning a
bookmaker's list does not stop at the first match.  In `inputPurifyEx` the
reference is A (most events); B's first record matches the seed, yet the
emitted group carries B's record at index 1 — the scan went on, consumed
B's second record too, and the later record displaced the first in the
group. -/
theorem c1_first_match_scan_cx :
    events_match (mkEv ("A") ("a1") ("x") ("y") 0)
        (mkEv ("B") ("b1") ("x") ("y") 0) 15 65 = true
    ∧ (purify_events inputPurifyEx 15 65).map groupPairs
        = [[("A", 0), ("B", 1), ("C", 0)]] :=
  ⟨by decide, by decide⟩

/-- Claim C1, amended: while searching one non-reference bookmaker's list
for matches against the current seed, the lenient matcher
(`EventMatcher.match_events`, `stopFirst = true`) adds and consumes exactly
the first not-yet-consumed record satisfying the predicate and touches no
further record of that list; the production purifier (`purify_events`,
`stopFirst = false`) consumes every not-yet-consumed record of the list
satisfying the predicate (later matches overwriting earlier ones in the
group, which is keyed by bookmaker).  Scanning then continues with the
remaining bookmakers in both profiles. -/
theorem c1_first_match_scan_amended :
    (∀ (pr : Event → Bool) (bk : String) (evs : List Event) (g : MGroup)
        (c : List (String × ℕ)),
      (∃ k, ∃ hk : k < evs.length,
        pr (evs.get ⟨k, hk⟩) = true ∧ (bk, k) ∉ c
        ∧ (∀ i, ∀ hi : i < k,
            ¬(pr (evs.get ⟨i, hi.trans hk⟩) = true ∧ (bk, i) ∉ c))
        ∧ scanList true pr bk 0 evs g c
            = (addEvent g (bk, k) (evs.get ⟨k, hk⟩), (bk, k) :: c))
      ∨ ((∀ k, ∀ hk : k < evs.length,
            ¬(pr (evs.get ⟨k, hk⟩) = true ∧ (bk, k) ∉ c))
        ∧ scanList true pr bk 0 evs g c = (g, c)))
    ∧ (∀ (pr : Event → Bool) (bk : String) (evs : List Event) (g : MGroup)
        (c : List (String × ℕ)) (p : String × ℕ),
      p ∈ (scanList false pr bk 0 evs g c).2 ↔
        p ∈ c ∨ ∃ k, ∃ hk : k < evs.length,
          p = (bk, k) ∧ pr (evs.get ⟨k, hk⟩) = true ∧ (bk, k) ∉ c) := by
  constructor
  · intro pr bk evs g c
    have h := scanList_true_char pr bk evs 0 g c
    simp only [Nat.zero_add] at h
    exact h
  · intro pr bk evs g c p
    have h := scanList_false_mem pr bk evs 0 g c p
    simp only [Nat.zero_add] at h
    exact h

/-- Claim C2, counterexample: the lenient matcher does not choose the
bookmaker with the most events as reference — it always uses the first
bookmaker of the input.  On `inputMatchEx` the most-events bookmaker is B,
yet the emitted group is seeded from A's record (its spelling "HOMEA" and
source index pair ("A", 0) appear in the output). -/
theorem c2_reference_selection_cx :
    matcherReference inputMatchEx = some ("A")
    ∧ mostEventsReference inputMatchEx = some ("B")
    ∧ (match_events inputMatchEx 15).map (fun g => (g.home, groupPairs g))
        = [("HOMEA", [("A", 0), ("B", 0)])] :=
  ⟨by decide, by decide, by decide⟩

/-- Claim C2, amended: the production purifier chooses as reference the
bookmaker with the most events, ties broken by the input ordering (the
stable descending sort's head is the first maximal-count key); the lenient
matcher instead always uses the first bookmaker of the input, regardless of
event counts. -/
theorem c2_reference_selection_amended (input : List (String × List Event))
    (a : String × List Event) (rest : List (String × List Event))
    (hin : input = a :: rest) :
    purifyReference input = mostEventsReference input
    ∧ matcherReference input = some a.1 := by
  subst hin
  refine ⟨?_, rfl⟩
  unfold purifyReference mostEventsReference bookerNamesSorted
  simp only [List.map_cons]
  exact isort_head_firstMaxKey _ _ _

/-- Witness for C2's amended theorem at a concrete two-bookmaker input. -/
theorem c2_reference_selection_witness :
    purifyReference [(("P"), ([] : List Event)), (("Q"), [])]
        = mostEventsReference [(("P"), []), (("Q"), [])]
    ∧ matcherReference [(("P"), ([] : List Event)), (("Q"), [])] = some ("P") :=
  c2_reference_selection_amended [(("P"), []), (("Q"), [])] (("P"), [])
    [(("Q"), [])] rfl

/-- Claim C7: across one full matching pass — for the production purifier and
for the lenient matcher alike — the final consumed list holds every source
record identity at most once, every emitted group only contains consumed
record identities, the emitted groups are pairwise disjoint in record
identities (a record consumed by one seed never appears in a later group,
and the consumed identities of discarded groups stay consumed), and no group
contains a record identity twice. -/
theorem c7_consumed_once (input : List (String × List Event)) (tth sth tthMin : ℕ) :
    ((purifyFull input tth sth).2.Nodup
      ∧ (∀ g ∈ purify_events input tth sth, ∀ p ∈ groupPairs g,
          p ∈ (purifyFull input tth sth).2)
      ∧ List.Pairwise GDisj (purify_events input tth sth)
      ∧ (∀ g ∈ purify_events input tth sth, (groupPairs g).Nodup))
    ∧ ((matchFull input tthMin).2.Nodup
      ∧ (∀ g ∈ match_events input tthMin, ∀ p ∈ groupPairs g,
          p ∈ (matchFull input tthMin).2)
      ∧ List.Pairwise GDisj (match_events input tthMin)
      ∧ (∀ g ∈ match_events input tthMin, (groupPairs g).Nodup)) := by
  constructor
  · unfold purify_events purifyFull
    split
    · exact ⟨List.nodup_nil, by simp, by simp, by simp⟩
    · next ref others heq =>
      obtain ⟨h1, h2, h3, h4⟩ :=
        seedLoop_inv false (fun e1 e2 => events_match e1 e2 tth sth) 3 input ref
          others ((input.lookup ref).getD []) 0 [] [] List.nodup_nil
          (by simp) List.Pairwise.nil (by simp)
      exact ⟨h1, h2, h3, h4⟩
  · unfold match_events matchFull
    split
    · exact ⟨List.nodup_nil, by simp, by simp, by simp⟩
    · next ref others heq =>
      obtain ⟨h1, h2, h3, h4⟩ :=
        seedLoop_inv true (fun e1 e2 => matcher_events_match e1 e2 tthMin) 2 input
          ref others ((input.lookup ref).getD []) 0 [] [] List.nodup_nil
          (by simp) List.Pairwise.nil (by simp)
      exact ⟨h1, h2, h3, h4⟩
